import Mathlib

/-! # Parameter tweak functions of varnishd

A shallow embedding of `bin/varnishd/mgt/mgt_param_tweak.c`.

Conventions of the embedding:

* C strings are `String`; a `NULL` argument is `none`.
* Every tweak function returns a `Res`: the C return value, the text it
  appended to the `vsb` output buffer, and the live value after the call.
* Integer types follow the LP64 data model: `unsigned` has 32 bits,
  `unsigned long` and `uintmax_t` have 64 bits, `ssize_t` has 64 bits.
  Values are `Nat`/`Int`, every conversion is an explicit reduction.
* A `double` is a rational number, an infinity or a NaN; the only rounding the
  file performs (a `uintmax_t` converted to `double`) is modelled exactly.
* Library functions of libc that decide a result (`strtoul`, `strcasecmp`,
  the `%u` conversion of `printf`) are modelled from the C standard; the
  remaining collaborators (`strtod`, the floating point `printf` conversions,
  `VNUM_2bytes`, `VAV_Parse`, `VSB_quote`, `VSS_resolve`, the identity lookups
  `getpwnam`, `getgrnam`, `getuid`, `getgid`) are parameters.
-/

namespace Varnish

/-! ## Machine limits -/

/-- Largest `unsigned` (32 bits): `2^32 - 1`. -/
def UINT_MAX : Nat := 4294967295

/-- Largest `unsigned long` / `uintmax_t` (64 bits): `2^64 - 1`. -/
def ULONG_MAX : Nat := 18446744073709551615

/-- Conversion of an integer value to `unsigned`. -/
def to_unsigned (n : Nat) : Nat := n % 4294967296

/-- Conversion of a `uintmax_t` to `ssize_t`: two's complement, 64 bits. -/
def to_ssize (r : Nat) : Int :=
  if r % 18446744073709551616 < 9223372036854775808 then ((r % 18446744073709551616 : Nat) : Int)
  else ((r % 18446744073709551616 : Nat) : Int) - 18446744073709551616

/-- Conversion of an `ssize_t` (or any integer) to `uintmax_t`. -/
def to_uintmax (x : Int) : Nat := (x % 18446744073709551616).toNat

/-- Conversion of an `ssize_t` to `unsigned`. -/
def ssize_to_unsigned (x : Int) : Nat := (x % 4294967296).toNat

/-! ## libc: character classes, `strcasecmp`, `strtoul`, `printf("%u")` -/

/-- The `isspace` class of the C locale. -/
def isspace (c : Char) : Bool :=
  c.toNat = 32 || (9 ≤ c.toNat && c.toNat ≤ 13)

/-- The `tolower` mapping of the C locale. -/
def tolower (c : Char) : Char :=
  if 65 ≤ c.toNat ∧ c.toNat ≤ 90 then Char.ofNat (c.toNat + 32) else c

/-- Value of a character as a digit (bases up to 36); 36 when it is none. -/
def digitVal (c : Char) : Nat :=
  if 48 ≤ c.toNat ∧ c.toNat ≤ 57 then c.toNat - 48
  else if 97 ≤ c.toNat ∧ c.toNat ≤ 122 then c.toNat - 97 + 10
  else if 65 ≤ c.toNat ∧ c.toNat ≤ 90 then c.toNat - 65 + 10
  else 36

/-- The `strcasecmp` function: difference of the first pair of characters that differ
after `tolower`, zero when there is none. -/
def strcasecmp : List Char → List Char → Int
  | [], [] => 0
  | [], b :: _ => - ((tolower b).toNat : Int)
  | a :: _, [] => ((tolower a).toNat : Int)
  | a :: as, b :: bs =>
    if tolower a = tolower b then strcasecmp as bs
    else ((tolower a).toNat : Int) - ((tolower b).toNat : Int)

/-- Longest run of digits of `base` at the head of the text: the accumulated value
(unbounded), the number of digits consumed, and the text that follows. -/
def scanDigits (base : Nat) : List Char → Nat → Nat → Nat × Nat × List Char
  | [], acc, n => (acc, n, [])
  | c :: cs, acc, n =>
    if digitVal c < base then scanDigits base cs (acc * base + digitVal c) (n + 1)
    else (acc, n, c :: cs)

/-- Sign of the subject sequence of `strtoul`: `true` for a leading minus, and the
text after the optional sign. -/
def strtoul_sign : List Char → Bool × List Char
  | [] => (false, [])
  | c :: cs => if c = '-' then (true, cs) else if c = '+' then (false, cs) else (false, c :: cs)

/-- Base selection of `strtoul` called with base 0: `0x`/`0X` before a hexadecimal
digit selects 16 and is skipped, another leading `0` selects 8, anything else 10. -/
def strtoul_base : List Char → Nat × List Char
  | c :: x :: h :: t =>
    if c = '0' then
      if (x = 'x' ∨ x = 'X') ∧ digitVal h < 16 then (16, h :: t) else (8, c :: x :: h :: t)
    else (10, c :: x :: h :: t)
  | c :: t => if c = '0' then (8, c :: t) else (10, c :: t)
  | [] => (10, [])

/-- The call `strtoul(s, &p, 0)`: the returned `unsigned long` and the text at `p`.
Leading white space and one sign are skipped; without any digit the result is 0
and `p = s`; a value above `ULONG_MAX` is returned as `ULONG_MAX`; a minus sign
negates the value in the `unsigned long` type. -/
def strtoul (s : List Char) : Nat × List Char :=
  let s1 := s.dropWhile isspace
  let sg := strtoul_sign s1
  let bs := strtoul_base sg.2
  let d := scanDigits bs.1 bs.2 0 0
  if d.2.1 = 0 then (0, s)
  else if d.1 > ULONG_MAX then (ULONG_MAX, d.2.2)
  else if sg.1 then ((18446744073709551616 - d.1) % 18446744073709551616, d.2.2)
  else (d.1, d.2.2)

/-- The decimal digit character of `d < 10`. -/
def digitChar (d : Nat) : Char := Char.ofNat (48 + d)

/-- Decimal digits of `n`, most significant first; `fuel` bounds the recursion and
`fuel = n` always suffices. -/
def decimal : Nat → Nat → List Char
  | 0, n => [digitChar (n % 10)]
  | fuel + 1, n =>
    if n < 10 then [digitChar n] else decimal fuel (n / 10) ++ [digitChar (n % 10)]

/-- The conversions `%u` and `%ju` of `printf`. -/
def printf_u (n : Nat) : String := ⟨decimal n n⟩

/-- The conversion `%.2f` of `printf` applied to `d / 1024.0`, where `d` is a
non-negative integer-valued `double`: the quotient is exact in binary, and the
exact value is rounded to two decimals, a tie going to the even neighbour. -/
def printf_2f_1024 (d : Nat) : String :=
  let q := d * 100 / 1024
  let rem := d * 100 % 1024
  let h := if 2 * rem > 1024 ∨ (2 * rem = 1024 ∧ q % 2 = 1) then q + 1 else q
  printf_u (h / 100) ++ "." ++ ⟨[digitChar (h % 100 / 10), digitChar (h % 10)]⟩

/-! ## The `double` type -/

/-- A value of type `double`: a rational, an infinity or a NaN. -/
inductive Double where
  | fin (q : ℚ)
  | pinf
  | ninf
  | nan
  deriving DecidableEq

namespace Double

/-- The comparison `a < b` of two doubles (false when either is a NaN). -/
def lt : Double → Double → Bool
  | fin a, fin b => decide (a < b)
  | fin _, pinf => true
  | ninf, fin _ => true
  | ninf, pinf => true
  | _, _ => false

/-- The comparison `a <= b` of two doubles (false when either is a NaN). -/
def le : Double → Double → Bool
  | fin a, fin b => decide (a ≤ b)
  | fin _, pinf => true
  | ninf, fin _ => true
  | ninf, pinf => true
  | pinf, pinf => true
  | ninf, ninf => true
  | _, _ => false

/-- The test `a != 0.`. -/
def ne0 : Double → Bool
  | fin a => decide (a ≠ 0)
  | _ => true

/-- The casts `(uintmax_t)a` of a double: truncation toward zero. C leaves the
cast undefined when the truncated value is out of range; here a negative value
gives 0, a larger one is reduced modulo `2^64`, an infinity or NaN gives 0. -/
def to_uintmax : Double → Nat
  | fin a => (Rat.floor a).toNat % 18446744073709551616
  | _ => 0

/-- The cast `(uint)a` of a double, with the convention of `to_uintmax`. -/
def to_uint : Double → Nat
  | fin a => (Rat.floor a).toNat % 4294967296
  | _ => 0

end Double

/-- Number of binary digits of `n`, for `n < 2^fuel`. -/
def bitlen : Nat → Nat → Nat
  | 0, _ => 0
  | fuel + 1, n => if n = 0 then 0 else bitlen fuel (n / 2) + 1

/-- The integer a `uintmax_t` becomes when converted to `double`: rounded to 53
significant bits, to nearest, a tie going to the even significand. -/
def round53 (r : Nat) : Nat :=
  let s := bitlen 64 r - 53
  let q := r / 2 ^ s
  let rem := r % 2 ^ s
  if 2 * rem > 2 ^ s ∨ (2 * rem = 2 ^ s ∧ q % 2 = 1) then (q + 1) * 2 ^ s else q * 2 ^ s

/-- Implicit conversion of a `uintmax_t` to `double`. -/
def of_uintmax (r : Nat) : Double := Double.fin (round53 r : ℚ)

/-! ## Collaborators, descriptors, results -/

/-- Functions the file calls and does not define. -/
structure Env where
  /-- The call `strtod(arg, &p)`: the value and the text at `p`. -/
  strtod : String → Double × String
  /-- The conversions `%f` and `%.6f` of `printf`. -/
  printf_f : Double → String
  /-- The conversion `%g` of `printf`. -/
  printf_g : Double → String
  /-- The conversion `%.g` of `printf`. -/
  printf_dot_g : Double → String
  /-- The call `VNUM_2bytes(arg, &r, 0)`: an error message, or the decoded count. -/
  VNUM_2bytes : String → Except String Nat
  /-- The call `VAV_Parse(arg, NULL, ARGV_COMMA)`: `none` for a `NULL` vector,
  otherwise the entry `av[0]` (an error message, if any) and the fields `av[1..]`. -/
  VAV_Parse : String → Option (Option String × List String)
  /-- The text `VSB_quote(vsb, s, -1, 0)` appends. -/
  VSB_quote : String → String

/-- The fields of `struct parspec` the tweak functions read; the storage `priv`
points to is passed to each function as its live value. -/
structure parspec where
  min : Double
  max : Double
  dflt : String

/-- Outcome of a tweak call: the C return value, the text appended to the output
buffer, and the live value after the call. -/
structure Res (σ : Type) where
  ret : Int
  out : String
  val : σ
  deriving DecidableEq

/-! ## Timeouts and doubles -/

/-- The function `tweak_generic_timeout`. -/
def tweak_generic_timeout (dst : Nat) (arg : Option String) : Res Nat :=
  match arg with
  | some a =>
    let u := to_unsigned (strtoul a.data).1
    if u = 0 then ⟨-1, "Timeout must be greater than zero\n", dst⟩
    else ⟨0, "", u⟩
  | none => ⟨0, printf_u dst, dst⟩

/-- The function `tweak_timeout`. -/
def tweak_timeout (_par : parspec) (dest : Nat) (arg : Option String) : Res Nat :=
  tweak_generic_timeout dest arg

/-- The function `tweak_generic_timeout_double`. -/
def tweak_generic_timeout_double (E : Env) (dest : Double) (arg : Option String)
    (min max : Double) : Res Double :=
  match arg with
  | some a =>
    let u := (E.strtod a).1
    let p := (E.strtod a).2
    if a = "" ∨ p ≠ "" then ⟨-1, "Not a number(" ++ a ++ ")\n", dest⟩
    else if Double.lt u min then
      ⟨-1, "Timeout must be greater or equal to " ++ E.printf_dot_g min ++ "\n", dest⟩
    else if Double.lt max u then
      ⟨-1, "Timeout must be less than or equal to " ++ E.printf_dot_g max ++ "\n", dest⟩
    else ⟨0, "", u⟩
  | none => ⟨0, E.printf_f dest, dest⟩

/-- The function `tweak_timeout_double`. -/
def tweak_timeout_double (E : Env) (par : parspec) (dest : Double) (arg : Option String) :
    Res Double :=
  tweak_generic_timeout_double E dest arg par.min par.max

/-- The function `tweak_generic_double`. -/
def tweak_generic_double (E : Env) (par : parspec) (dest : Double) (arg : Option String) :
    Res Double :=
  match arg with
  | some a =>
    let u := (E.strtod a).1
    let p := (E.strtod a).2
    if p ≠ "" then ⟨-1, "Not a number (" ++ a ++ ")\n", dest⟩
    else if Double.lt u par.min then
      ⟨-1, "Must be greater or equal to " ++ E.printf_dot_g par.min ++ "\n", dest⟩
    else if Double.lt par.max u then
      ⟨-1, "Must be less than or equal to " ++ E.printf_dot_g par.max ++ "\n", dest⟩
    else ⟨0, "", u⟩
  | none => ⟨0, E.printf_f dest, dest⟩

/-! ## Booleans -/

/-- The function `tweak_bool`. -/
def tweak_bool (par : parspec) (dest : Nat) (arg : Option String) : Res Nat :=
  let mode : Nat := if par.dflt = "off" ∨ par.dflt = "on" then 1 else 0
  match arg with
  | some a =>
    if strcasecmp a.data "off".data = 0 then ⟨0, "", 0⟩
    else if strcasecmp a.data "disable".data = 0 then ⟨0, "", 0⟩
    else if strcasecmp a.data "no".data = 0 then ⟨0, "", 0⟩
    else if strcasecmp a.data "false".data = 0 then ⟨0, "", 0⟩
    else if strcasecmp a.data "on".data = 0 then ⟨0, "", 1⟩
    else if strcasecmp a.data "enable".data = 0 then ⟨0, "", 1⟩
    else if strcasecmp a.data "yes".data = 0 then ⟨0, "", 1⟩
    else if strcasecmp a.data "true".data = 0 then ⟨0, "", 1⟩
    else
      ⟨-1, if mode ≠ 0 then "use \"on\" or \"off\"\n" else "use \"true\" or \"false\"\n", dest⟩
  | none =>
    if mode ≠ 0 then ⟨0, if dest ≠ 0 then "on" else "off", dest⟩
    else ⟨0, if dest ≠ 0 then "true" else "false", dest⟩

/-! ## Unsigned integers -/

/-- The function `tweak_generic_uint`. -/
def tweak_generic_uint (dest : Nat) (arg : Option String) (min max : Nat) : Res Nat :=
  match arg with
  | some a =>
    let unlimited : Bool := decide (strcasecmp a.data "unlimited".data = 0)
    let u := if unlimited then UINT_MAX else to_unsigned (strtoul a.data).1
    if ¬ unlimited ∧ (a = "" ∨ (strtoul a.data).2 ≠ []) then
      ⟨-1, "Not a number (" ++ a ++ ")\n", dest⟩
    else if u < min then ⟨-1, "Must be at least " ++ printf_u min ++ "\n", dest⟩
    else if u > max then ⟨-1, "Must be no more than " ++ printf_u max ++ "\n", dest⟩
    else ⟨0, "", u⟩
  | none =>
    if dest = UINT_MAX then ⟨0, "unlimited", dest⟩
    else ⟨0, printf_u dest, dest⟩

/-- The function `tweak_uint`: the result of `tweak_generic_uint` is cast to `void`
and 0 is returned. -/
def tweak_uint (par : parspec) (dest : Nat) (arg : Option String) : Res Nat :=
  let r := tweak_generic_uint dest arg par.min.to_uint par.max.to_uint
  ⟨0, r.out, r.val⟩

/-! ## Byte sizes -/

/-- The loop of `fmt_bytes` over the suffixes left. -/
def fmt_bytes_loop : List Char → Nat → String
  | [], _ => "(bogus number)"
  | p :: ps, t =>
    if t &&& 0x300 ≠ 0 then printf_2f_1024 (round53 t) ++ ⟨[p]⟩
    else if (t / 1024) &&& 0x0ff ≠ 0 then printf_u (t / 1024) ++ ⟨[p]⟩
    else fmt_bytes_loop ps (t / 1024)

/-- The function `fmt_bytes`, returning the text it appends. -/
def fmt_bytes (t : Nat) : String :=
  if t &&& 0xff ≠ 0 then printf_u t ++ "b"
  else fmt_bytes_loop "kMGTPEZY".data t

/-- The function `tweak_generic_bytes`; the decoder writes a `uintmax_t`, so its
count is taken modulo `2^64`. -/
def tweak_generic_bytes (E : Env) (dest : Int) (arg : Option String) (min max : Double) :
    Res Int :=
  match arg with
  | some a =>
    match E.VNUM_2bytes a with
    | .error p =>
      ⟨-1, "Could not convert to bytes.\n" ++ p ++ "\n" ++
        "  Try something like \x2780k\x27 or \x27120M\x27\n", dest⟩
    | .ok r0 =>
      let r := r0 % 18446744073709551616
      if to_uintmax (to_ssize r) ≠ r then
        ⟨-1, fmt_bytes r ++ " is too large for this architecture.\n", dest⟩
      else if max.ne0 ∧ Double.lt max (of_uintmax r) then
        ⟨-1, "Must be no more than " ++ fmt_bytes max.to_uintmax ++ "\n", dest⟩
      else if Double.lt (of_uintmax r) min then
        ⟨-1, "Must be at least " ++ fmt_bytes min.to_uintmax ++ "\n", dest⟩
      else ⟨0, "", to_ssize r⟩
  | none => ⟨0, fmt_bytes (to_uintmax dest), dest⟩

/-- The function `tweak_bytes`; `none` when the assertion `par->min >= 0` fails. -/
def tweak_bytes (E : Env) (par : parspec) (dest : Int) (arg : Option String) :
    Option (Res Int) :=
  if Double.le (Double.fin 0) par.min then
    some (tweak_generic_bytes E dest arg par.min par.max)
  else none

/-- The function `tweak_bytes_u`; `none` when one of its two assertions fails. The
live `unsigned` is copied into a local `ssize_t`, and the local is written back,
converted to `unsigned`, when `tweak_generic_bytes` returns 0. -/
def tweak_bytes_u (E : Env) (par : parspec) (d1 : Nat) (arg : Option String) :
    Option (Res Nat) :=
  if Double.le par.max (Double.fin 4294967295) then
    if Double.le (Double.fin 0) par.min then
      let r := tweak_generic_bytes E (d1 : Int) arg par.min par.max
      if r.ret ≠ 0 then some ⟨-1, r.out, d1⟩
      else some ⟨0, r.out, ssize_to_unsigned r.val⟩
    else none
  else none

/-! ## Listen addresses -/

/-- The fields of `struct listen_sock` the file writes; `A` is the type of a
resolved address (`struct vss_addr *`). -/
structure listen_sock (A : Type) where
  sock : Int
  addr : A
  name : String
  deriving DecidableEq

/-- The process-wide state `tweak_listen_address` works on: the text
`mgt_param.listen_address`, the queue `heritage.socks` and the counter
`heritage.nsocks` (declared outside this file; a natural number here). -/
structure listen_state (A : Type) where
  listen_address : String
  socks : List (listen_sock A)
  nsocks : Nat
  deriving DecidableEq

/-- The function `clean_listen_sock_head`: every record is removed and freed. -/
def clean_listen_sock_head {A : Type} : List (listen_sock A) → List (listen_sock A)
  | [] => []
  | _ :: rest => clean_listen_sock_head rest

/-- The resolving loop of `tweak_listen_address` over the tokens `av[i..]`, with the
private queue `lsh` built so far: `retval`, the text appended, and the queue. -/
def listen_resolve {A : Type} (E : Env) (VSS_resolve : String → List A) :
    List String → List (listen_sock A) → Int × String × List (listen_sock A)
  | [], lsh => (0, "", lsh)
  | t :: ts, lsh =>
    if (VSS_resolve t).length = 0 then
      (-1, "Invalid listen address " ++ E.VSB_quote t, lsh)
    else
      listen_resolve E VSS_resolve ts (lsh ++ (VSS_resolve t).map (fun a => ⟨-1, a, t⟩))

/-- The final loop of `tweak_listen_address`: each record of the private queue is
moved to the tail of `heritage.socks` and counted. -/
def listen_commit {A : Type} :
    List (listen_sock A) → List (listen_sock A) → Nat → List (listen_sock A) × Nat
  | [], socks, nsocks => (socks, nsocks)
  | ls :: lsh, socks, nsocks => listen_commit lsh (socks ++ [ls]) (nsocks + 1)

/-- The function `tweak_listen_address`; `VSS_resolve` gives the addresses a token
resolves to (service hint `"http"`). -/
def tweak_listen_address {A : Type} (E : Env) (VSS_resolve : String → List A)
    (st : listen_state A) (arg : Option String) : Res (listen_state A) :=
  match arg with
  | none => ⟨0, E.VSB_quote st.listen_address, st⟩
  | some a =>
    match E.VAV_Parse a with
    | none => ⟨-1, "Parse error: out of memory", st⟩
    | some (some e, _) => ⟨-1, "Parse error: " ++ e, st⟩
    | some (none, []) => ⟨-1, "Empty listen address", st⟩
    | some (none, t :: ts) =>
      let r := listen_resolve E VSS_resolve (t :: ts) []
      if r.1 ≠ 0 then ⟨-1, r.2.1, st⟩
      else
        let c := listen_commit r.2.2 (clean_listen_sock_head st.socks) 0
        ⟨0, r.2.1, ⟨a, c.1, c.2⟩⟩

/-! ## Pool parameters -/

/-- The type `struct poolparam`. -/
structure poolparam where
  min_pool : Nat
  max_pool : Nat
  max_age : Double
  deriving DecidableEq

/-- The function `tweak_poolparam`; `none` when `VAV_Parse` returns `NULL`, which
the function dereferences. The three fields are validated into the copy `px`. -/
def tweak_poolparam (E : Env) (par : parspec) (pp : poolparam) (arg : Option String) :
    Option (Res poolparam) :=
  match arg with
  | none =>
    some ⟨0, printf_u pp.min_pool ++ "," ++ printf_u pp.max_pool ++ "," ++
      E.printf_g pp.max_age, pp⟩
  | some a =>
    match E.VAV_Parse a with
    | none => none
    | some (some e, _) => some ⟨-1, "Parse error: " ++ e, pp⟩
    | some (none, a1 :: a2 :: a3 :: _) =>
      let r1 := tweak_generic_uint pp.min_pool (some a1) par.min.to_uint par.max.to_uint
      if r1.ret ≠ 0 then some ⟨r1.ret, r1.out, pp⟩
      else
        let r2 := tweak_generic_uint pp.max_pool (some a2) par.min.to_uint par.max.to_uint
        if r2.ret ≠ 0 then some ⟨r2.ret, r1.out ++ r2.out, pp⟩
        else
          let r3 := tweak_generic_timeout_double E pp.max_age (some a3)
            (Double.fin 0) (Double.fin 1000000)
          if r3.ret ≠ 0 then some ⟨r3.ret, r1.out ++ r2.out ++ r3.out, pp⟩
          else if r1.val > r2.val then
            some ⟨-1, r1.out ++ r2.out ++ r3.out ++
              "min_pool cannot be larger than max_pool\n", pp⟩
          else some ⟨0, r1.out ++ r2.out ++ r3.out, ⟨r1.val, r2.val, r3.val⟩⟩
    | some (none, _) =>
      some ⟨-1, "Three fields required: min_pool, max_pool and max_age\n", pp⟩

/-! ## Identities -/

/-- Conversion of a `uid_t` or `gid_t` (unsigned, 32 bits) to `int`. -/
def to_int (n : Nat) : Int :=
  if n % 4294967296 < 2147483648 then ((n % 4294967296 : Nat) : Int)
  else ((n % 4294967296 : Nat) : Int) - 4294967296

/-- The conversion `%d` of `printf`. -/
def printf_d (x : Int) : String :=
  if x < 0 then "-" ++ printf_u x.natAbs else printf_u x.natAbs

/-- The identity lookups of the operating system: `getpwnam` and `getgrnam` give the
name and the numeric id of the entry found, `getuid` and `getgid` the real
ids of the process. -/
structure IdEnv where
  getpwnam : String → Option (String × Nat)
  getgrnam : String → Option (String × Nat)
  getuid : Nat
  getgid : Nat

/-- The pair `mgt_param.user`, `mgt_param.uid` (or `mgt_param.group`,
`mgt_param.gid`): the cached name, absent while the pointer is `NULL`, and the id. -/
structure identity where
  name : Option String
  id : Nat
  deriving DecidableEq

/-- The function `tweak_user`. -/
def tweak_user (I : IdEnv) (_par : parspec) (st : identity) (arg : Option String) :
    Res identity :=
  match arg with
  | some a =>
    if a ≠ "" then
      match I.getpwnam a with
      | none => ⟨-1, "Unknown user", st⟩
      | some pw => ⟨0, "", ⟨some pw.1, pw.2⟩⟩
    else ⟨0, "", ⟨st.name, I.getuid⟩⟩
  | none =>
    match st.name with
    | some user => ⟨0, user ++ " (" ++ printf_d (to_int st.id) ++ ")", st⟩
    | none => ⟨0, "UID " ++ printf_d (to_int st.id), st⟩

/-- The function `tweak_group`. -/
def tweak_group (I : IdEnv) (_par : parspec) (st : identity) (arg : Option String) :
    Res identity :=
  match arg with
  | some a =>
    if a ≠ "" then
      match I.getgrnam a with
      | none => ⟨-1, "Unknown group", st⟩
      | some gr => ⟨0, "", ⟨some gr.1, gr.2⟩⟩
    else ⟨0, "", ⟨st.name, I.getgid⟩⟩
  | none =>
    match st.name with
    | some group => ⟨0, group ++ " (" ++ printf_d (to_int st.id) ++ ")", st⟩
    | none => ⟨0, "GID " ++ printf_d (to_int st.id), st⟩

/-! ## Vocabulary of the statements -/

/-- Two texts are equal ignoring letter case. -/
def eq_nocase (a w : String) : Prop := a.data.map tolower = w.data.map tolower

instance (a w : String) : Decidable (eq_nocase a w) :=
  inferInstanceAs (Decidable (a.data.map tolower = w.data.map tolower))

/-- The value the bounded-unsigned rule of `tweak_generic_uint` reads from a text
that it accepts as a number: `UINT_MAX` for `unlimited`, otherwise the result of
`strtoul` as an `unsigned`. -/
def uint_value (a : String) : Nat :=
  if strcasecmp a.data "unlimited".data = 0 then UINT_MAX else to_unsigned (strtoul a.data).1

/-- A text is a C string: no character of it is the terminating NUL. -/
def c_string (a : String) : Prop := ∀ c ∈ a.data, c.toNat ≠ 0

instance (a : String) : Decidable (c_string a) :=
  inferInstanceAs (Decidable (∀ c ∈ a.data, c.toNat ≠ 0))

/-- The text is one of `off`, `disable`, `no`, `false`, ignoring letter case. -/
def bool_false_word (a : String) : Prop :=
  eq_nocase a "off" ∨ eq_nocase a "disable" ∨ eq_nocase a "no" ∨ eq_nocase a "false"

/-- The text is one of `on`, `enable`, `yes`, `true`, ignoring letter case. -/
def bool_true_word (a : String) : Prop :=
  eq_nocase a "on" ∨ eq_nocase a "enable" ∨ eq_nocase a "yes" ∨ eq_nocase a "true"

/-- The `VSB_printf` call that `fmt_bytes` makes: `int q p` for the formats `%jub`
and `%ju%c` with the integer `q` and the suffix `p`, `frac c p` for the format
`%.2f%c` with the quotient `c / 1024.0` and the suffix `p`, `bogus` for the
placeholder. -/
inductive fmt_call where
  | int (q : Nat) (p : Char)
  | frac (c : Nat) (p : Char)
  | bogus
  deriving DecidableEq

/-- The call the loop of `fmt_bytes` makes, over the suffixes left. -/
def fmt_bytes_loop_call : List Char → Nat → fmt_call
  | [], _ => .bogus
  | p :: ps, t =>
    if t &&& 0x300 ≠ 0 then .frac t p
    else if (t / 1024) &&& 0x0ff ≠ 0 then .int (t / 1024) p
    else fmt_bytes_loop_call ps (t / 1024)

/-- The call `fmt_bytes` makes. -/
def fmt_bytes_call (t : Nat) : fmt_call :=
  if t &&& 0xff ≠ 0 then .int t 'b'
  else fmt_bytes_loop_call "kMGTPEZY".data t

/-- The text a call of `fmt_bytes` appends. -/
def fmt_call.text : fmt_call → String
  | .int q p => printf_u q ++ ⟨[p]⟩
  | .frac c p => printf_2f_1024 (round53 c) ++ ⟨[p]⟩
  | .bogus => "(bogus number)"

/-! ## A sample environment -/

/-- Fields of a text separated by commas (a text without a comma is one field, the
empty text has none). -/
def comma_fields : List Char → List Char → List String
  | [], [] => []
  | [], cur => [⟨cur.reverse⟩]
  | c :: cs, cur => if c = ',' then ⟨cur.reverse⟩ :: comma_fields cs [] else comma_fields cs (c :: cur)

/-- A sample environment used to run the functions on concrete inputs: numbers
are unsigned decimal integers (read by `strtoul`, a fraction `.0` is accepted by
`strtod`), fields are split at commas, quoting adds double quotes. -/
def sampleEnv : Env where
  strtod := fun s =>
    let r := strtoul s.data
    if r.2 = ['.', '0'] then (Double.fin (r.1 : ℚ), "") else (Double.fin (r.1 : ℚ), ⟨r.2⟩)
  printf_f := fun _ => "?"
  printf_g := fun _ => "?"
  printf_dot_g := fun _ => "?"
  VNUM_2bytes := fun s =>
    if s = "" ∨ (strtoul s.data).2 ≠ [] then .error "Invalid number" else .ok (strtoul s.data).1
  VAV_Parse := fun s => some (none, comma_fields s.data [])
  VSB_quote := fun s => "\"" ++ s ++ "\""

/-- A sample identity database: the user `www` with id 33, the group `staff` with
id 50, and a process running as user 1000 and group 100. -/
def sampleIdEnv : IdEnv where
  getpwnam := fun s => if s = "www" then some ("www", 33) else none
  getgrnam := fun s => if s = "staff" then some ("staff", 50) else none
  getuid := 1000
  getgid := 100

/-! ## Facts about the libc models -/

theorem toNat_ofNat_small (n : Nat) (h : n < 55296) : (Char.ofNat n).toNat = n := by
  have hv : n.isValidChar := Or.inl h
  simp only [Char.ofNat, dif_pos hv, Char.ofNatAux, Char.toNat]
  rfl

theorem toNat_inj {c d : Char} (h : c.toNat = d.toNat) : c = d := by
  rw [← Char.ofNat_toNat c, ← Char.ofNat_toNat d, h]

theorem digitChar_facts : ∀ d < 10, digitVal (digitChar d) = d ∧ isspace (digitChar d) = false ∧
    digitChar d ≠ '-' ∧ digitChar d ≠ '+' ∧ (d ≠ 0 → digitChar d ≠ '0') ∧
    tolower (digitChar d) ≠ 'u' := by
  decide

theorem tolower_toNat (c : Char) :
    (tolower c).toNat = if 65 ≤ c.toNat ∧ c.toNat ≤ 90 then c.toNat + 32 else c.toNat := by
  unfold tolower
  split_ifs with h
  · exact toNat_ofNat_small _ (by omega)
  · rfl

theorem tolower_idem (c : Char) : tolower (tolower c) = tolower c := by
  apply toNat_inj
  rw [tolower_toNat (tolower c), tolower_toNat c]
  split_ifs <;> omega

theorem strcasecmp_map_left (a b : List Char) :
    strcasecmp (a.map tolower) b = strcasecmp a b := by
  induction a generalizing b with
  | nil => rfl
  | cons c cs ih =>
    cases b with
    | nil => simp only [List.map_cons, strcasecmp, tolower_idem]
    | cons d ds => simp only [List.map_cons, strcasecmp, tolower_idem, ih]

/-- A text whose lower-case image is that of `w` compares like `w`. -/
theorem strcasecmp_congr_left {a w : List Char} (b : List Char)
    (h : a.map tolower = w.map tolower) : strcasecmp a b = strcasecmp w b := by
  rw [← strcasecmp_map_left a b, h, strcasecmp_map_left]

theorem decimal_succ (fuel n : Nat) (h : 10 ≤ n) :
    decimal (fuel + 1) n = decimal fuel (n / 10) ++ [digitChar (n % 10)] := by
  rw [decimal, if_neg (by omega)]

theorem decimal_lt (fuel n : Nat) (h : n < 10) : decimal fuel n = [digitChar n] := by
  cases fuel with
  | zero => rw [decimal, Nat.mod_eq_of_lt h]
  | succ f => rw [decimal, if_pos h]

theorem decimal_ne_nil (fuel n : Nat) : decimal fuel n ≠ [] := by
  cases fuel with
  | zero => simp [decimal]
  | succ f =>
    rw [decimal]
    split_ifs <;> simp

/-- The first digit `decimal` writes for a positive number is not zero. -/
theorem decimal_head (fuel n : Nat) (hn : 0 < n) (hf : n ≤ fuel) :
    ∃ d tl, 0 < d ∧ d < 10 ∧ decimal fuel n = digitChar d :: tl := by
  induction fuel generalizing n with
  | zero => omega
  | succ f ih =>
    by_cases h : n < 10
    · exact ⟨n, [], hn, h, decimal_lt _ _ h⟩
    · obtain ⟨d, tl, h0, h1, h2⟩ := ih (n / 10) (by omega) (by omega)
      exact ⟨d, tl ++ [digitChar (n % 10)], h0, h1, by
        rw [decimal_succ _ _ (by omega), h2]; rfl⟩

theorem scanDigits_digit (d : Nat) (hd : d < 10) (rest : List Char) (acc k : Nat) :
    scanDigits 10 (digitChar d :: rest) acc k = scanDigits 10 rest (acc * 10 + d) (k + 1) := by
  rw [scanDigits, (digitChar_facts d hd).1, if_pos hd]

theorem scanDigits_decimal (fuel n : Nat) (hf : n ≤ fuel) (rest : List Char) (acc k : Nat) :
    scanDigits 10 (decimal fuel n ++ rest) acc k =
      scanDigits 10 rest (acc * 10 ^ (decimal fuel n).length + n)
        (k + (decimal fuel n).length) := by
  induction fuel generalizing n rest acc k with
  | zero =>
    have h0 : n = 0 := by omega
    subst h0
    rw [decimal_lt 0 0 (by omega)]
    simp only [List.singleton_append, List.length_singleton, pow_one]
    exact scanDigits_digit 0 (by omega) rest acc k
  | succ f ih =>
    by_cases h : n < 10
    · rw [decimal_lt _ _ h]
      simp only [List.singleton_append, List.length_singleton, pow_one]
      exact scanDigits_digit n h rest acc k
    · rw [decimal_succ _ _ (by omega), List.append_assoc, ih (n / 10) (by omega)]
      simp only [List.singleton_append, List.length_append, List.length_singleton]
      rw [scanDigits_digit (n % 10) (Nat.mod_lt _ (by omega))]
      have e : (acc * 10 ^ (decimal f (n / 10)).length + n / 10) * 10 + n % 10 =
          acc * 10 ^ ((decimal f (n / 10)).length + 1) + n := by
        rw [pow_succ]
        have := Nat.div_add_mod n 10
        nlinarith [this]
      rw [e, Nat.add_assoc]

theorem strtoul_sign_other (c : Char) (t : List Char) (h1 : c ≠ '-') (h2 : c ≠ '+') :
    strtoul_sign (c :: t) = (false, c :: t) := by
  rw [strtoul_sign, if_neg h1, if_neg h2]

theorem strtoul_base_decimal (c : Char) (t : List Char) (h : c ≠ '0') :
    strtoul_base (c :: t) = (10, c :: t) := by
  match t with
  | [] => simp [strtoul_base, h]
  | [x] => simp [strtoul_base, h]
  | x :: y :: t => rw [strtoul_base, if_neg h]

/-- The function `strtoul` reads back what `%u` writes. -/
theorem strtoul_decimal (n : Nat) (h : n ≤ ULONG_MAX) : strtoul (decimal n n) = (n, []) := by
  by_cases h0 : n = 0
  · subst h0; decide
  · obtain ⟨d, tl, hd0, hd1, hd⟩ := decimal_head n n (by omega) (le_refl n)
    obtain ⟨_, f2, f3, f4, f5, _⟩ := digitChar_facts d hd1
    have hs := scanDigits_decimal n n (le_refl n) [] 0 0
    simp only [List.append_nil, Nat.zero_mul, Nat.zero_add] at hs
    have hlen : (decimal n n).length ≠ 0 := by
      rw [hd]; simp
    unfold strtoul
    have e1 : List.dropWhile isspace (decimal n n) = decimal n n := by
      rw [hd, List.dropWhile_cons_of_neg (by simp [f2])]
    simp only [e1]
    rw [hd, strtoul_sign_other _ _ f3 f4]
    simp only
    rw [strtoul_base_decimal _ _ (f5 (by omega))]
    simp only
    rw [← hd, hs]
    simp only [scanDigits]
    rw [if_neg hlen, if_neg (by omega)]
    simp

/-! ## No partial mutation (C1) -/

theorem tweak_generic_timeout_fail (dst : Nat) (a : String) :
    (tweak_generic_timeout dst (some a)).ret ≠ 0 →
    (tweak_generic_timeout dst (some a)).val = dst := by
  rw [tweak_generic_timeout]
  generalize strtoul a.data = s
  split_ifs <;> first | (intro h; exact absurd rfl h) | (intro _; rfl)

theorem tweak_generic_timeout_double_fail (E : Env) (dest : Double) (a : String)
    (min max : Double) : (tweak_generic_timeout_double E dest (some a) min max).ret ≠ 0 →
    (tweak_generic_timeout_double E dest (some a) min max).val = dest := by
  rw [tweak_generic_timeout_double]
  generalize E.strtod a = s
  split_ifs <;> first | (intro h; exact absurd rfl h) | (intro _; rfl)

theorem tweak_generic_double_fail (E : Env) (par : parspec) (dest : Double) (a : String) :
    (tweak_generic_double E par dest (some a)).ret ≠ 0 →
    (tweak_generic_double E par dest (some a)).val = dest := by
  rw [tweak_generic_double]
  generalize E.strtod a = s
  split_ifs <;> first | (intro h; exact absurd rfl h) | (intro _; rfl)

/-- The three outcomes of a set of `tweak_bool`. -/
theorem tweak_bool_set_cases (par : parspec) (dest : Nat) (a : String) :
    tweak_bool par dest (some a) = ⟨0, "", 0⟩ ∨ tweak_bool par dest (some a) = ⟨0, "", 1⟩ ∨
    tweak_bool par dest (some a) =
      ⟨-1, if par.dflt = "off" ∨ par.dflt = "on" then "use \"on\" or \"off\"\n"
        else "use \"true\" or \"false\"\n", dest⟩ := by
  rw [tweak_bool]
  generalize strcasecmp a.data "off".data = c1
  generalize strcasecmp a.data "disable".data = c2
  generalize strcasecmp a.data "no".data = c3
  generalize strcasecmp a.data "false".data = c4
  generalize strcasecmp a.data "on".data = c5
  generalize strcasecmp a.data "enable".data = c6
  generalize strcasecmp a.data "yes".data = c7
  generalize strcasecmp a.data "true".data = c8
  by_cases h1 : c1 = 0
  · rw [if_pos h1]; exact Or.inl rfl
  rw [if_neg h1]
  by_cases h2 : c2 = 0
  · rw [if_pos h2]; exact Or.inl rfl
  rw [if_neg h2]
  by_cases h3 : c3 = 0
  · rw [if_pos h3]; exact Or.inl rfl
  rw [if_neg h3]
  by_cases h4 : c4 = 0
  · rw [if_pos h4]; exact Or.inl rfl
  rw [if_neg h4]
  by_cases h5 : c5 = 0
  · rw [if_pos h5]; exact Or.inr (Or.inl rfl)
  rw [if_neg h5]
  by_cases h6 : c6 = 0
  · rw [if_pos h6]; exact Or.inr (Or.inl rfl)
  rw [if_neg h6]
  by_cases h7 : c7 = 0
  · rw [if_pos h7]; exact Or.inr (Or.inl rfl)
  rw [if_neg h7]
  by_cases h8 : c8 = 0
  · rw [if_pos h8]; exact Or.inr (Or.inl rfl)
  rw [if_neg h8]
  refine Or.inr (Or.inr ?_)
  by_cases hm : par.dflt = "off" ∨ par.dflt = "on"
  · rw [if_pos hm, if_pos hm, if_pos (by decide)]
  · rw [if_neg hm, if_neg hm, if_neg (by decide)]

theorem tweak_bool_fail (par : parspec) (dest : Nat) (a : String)
    (h : (tweak_bool par dest (some a)).ret ≠ 0) :
    (tweak_bool par dest (some a)).val = dest := by
  rcases tweak_bool_set_cases par dest a with e | e | e
  · rw [e] at h; exact absurd rfl h
  · rw [e] at h; exact absurd rfl h
  · rw [e]

theorem tweak_generic_uint_fail (dest : Nat) (a : String) (min max : Nat) :
    (tweak_generic_uint dest (some a) min max).ret ≠ 0 →
    (tweak_generic_uint dest (some a) min max).val = dest := by
  rw [tweak_generic_uint]
  generalize strcasecmp a.data "unlimited".data = c
  generalize strtoul a.data = s
  split_ifs <;> first | (intro h; exact absurd rfl h) | (intro _; rfl)

theorem tweak_generic_bytes_fail (E : Env) (dest : Int) (a : String) (min max : Double) :
    (tweak_generic_bytes E dest (some a) min max).ret ≠ 0 →
    (tweak_generic_bytes E dest (some a) min max).val = dest := by
  rw [tweak_generic_bytes]
  generalize E.VNUM_2bytes a = d
  cases d with
  | error p => intro _; rfl
  | ok r0 =>
    dsimp only
    generalize r0 % 18446744073709551616 = r
    split_ifs <;> first | (intro h; exact absurd rfl h) | (intro _; rfl)

theorem tweak_bool_query (par : parspec) (dest : Nat) :
    (tweak_bool par dest none).val = dest := by
  rw [tweak_bool]
  split_ifs <;> rfl

theorem tweak_generic_uint_query (dest min max : Nat) :
    (tweak_generic_uint dest none min max).val = dest := by
  rw [tweak_generic_uint]
  split_ifs <;> rfl

theorem ssize_to_unsigned_cast (d : Nat) (h : d ≤ UINT_MAX) :
    ssize_to_unsigned (d : Int) = d := by
  simp only [UINT_MAX] at h
  simp only [ssize_to_unsigned]
  omega

/-- C1: for each scalar tweak operation (`tweak_timeout`, `tweak_timeout_double`,
`tweak_generic_double`, `tweak_bool`, `tweak_generic_uint`, `tweak_bytes`,
`tweak_bytes_u`), every descriptor and every argument, the live value after a query
(argument absent) and after a set that returns failure (a non-zero result, in
particular -1) equals the live value before the call. `tweak_bytes` and
`tweak_bytes_u` return whenever their assertions hold, and the live value of
`tweak_bytes_u` is an `unsigned`. -/
theorem tweak_scalar_no_partial_mutation (E : Env) (par : parspec) (arg : Option String) :
    (∀ dest : Nat, arg = none ∨ (tweak_timeout par dest arg).ret ≠ 0 →
      (tweak_timeout par dest arg).val = dest) ∧
    (∀ dest : Double, arg = none ∨ (tweak_timeout_double E par dest arg).ret ≠ 0 →
      (tweak_timeout_double E par dest arg).val = dest) ∧
    (∀ dest : Double, arg = none ∨ (tweak_generic_double E par dest arg).ret ≠ 0 →
      (tweak_generic_double E par dest arg).val = dest) ∧
    (∀ dest : Nat, arg = none ∨ (tweak_bool par dest arg).ret ≠ 0 →
      (tweak_bool par dest arg).val = dest) ∧
    (∀ dest min max : Nat, arg = none ∨ (tweak_generic_uint dest arg min max).ret ≠ 0 →
      (tweak_generic_uint dest arg min max).val = dest) ∧
    (∀ dest : Int, Double.le (.fin 0) par.min = true →
      ∃ r, tweak_bytes E par dest arg = some r ∧ (arg = none ∨ r.ret ≠ 0 → r.val = dest)) ∧
    (∀ d1 : Nat, d1 ≤ UINT_MAX → Double.le par.max (.fin 4294967295) = true →
      Double.le (.fin 0) par.min = true →
      ∃ r, tweak_bytes_u E par d1 arg = some r ∧ (arg = none ∨ r.ret ≠ 0 → r.val = d1)) := by
  cases arg with
  | none =>
    refine ⟨fun _ _ => rfl, fun _ _ => rfl, fun _ _ => rfl,
      fun dest _ => tweak_bool_query par dest,
      fun dest min max _ => tweak_generic_uint_query dest min max, ?_, ?_⟩
    · intro dest hmin
      refine ⟨tweak_generic_bytes E dest none par.min par.max, ?_, fun _ => rfl⟩
      rw [tweak_bytes, if_pos hmin]
    · intro d1 hd hmax hmin
      refine ⟨⟨0, fmt_bytes (to_uintmax (d1 : Int)), ssize_to_unsigned (d1 : Int)⟩, ?_,
        fun _ => ssize_to_unsigned_cast d1 hd⟩
      rw [tweak_bytes_u, if_pos hmax, if_pos hmin]
      rfl
  | some a =>
    have hs : ∀ {p : Prop}, (some a = none ∨ p) → p := fun h => h.resolve_left (by simp)
    refine ⟨fun dest h => tweak_generic_timeout_fail dest a (hs h),
      fun dest h => tweak_generic_timeout_double_fail E dest a par.min par.max (hs h),
      fun dest h => tweak_generic_double_fail E par dest a (hs h),
      fun dest h => tweak_bool_fail par dest a (hs h),
      fun dest min max h => tweak_generic_uint_fail dest a min max (hs h), ?_, ?_⟩
    · intro dest hmin
      refine ⟨tweak_generic_bytes E dest (some a) par.min par.max, ?_,
        fun h => tweak_generic_bytes_fail E dest a par.min par.max (hs h)⟩
      rw [tweak_bytes, if_pos hmin]
    · intro d1 hd hmax hmin
      rw [tweak_bytes_u, if_pos hmax, if_pos hmin]
      dsimp only
      by_cases c : (tweak_generic_bytes E (d1 : Int) (some a) par.min par.max).ret ≠ 0
      · rw [if_pos c]
        exact ⟨_, rfl, fun _ => rfl⟩
      · rw [if_neg c]
        exact ⟨_, rfl, fun h => absurd rfl (hs h)⟩

/-- Witness of C1: a set of the text `x`, which every scalar tweak rejects, on live
values 7, 3 and 1. -/
theorem tweak_scalar_no_partial_mutation_witness :
    (tweak_timeout ⟨.fin 0, .fin 10, "off"⟩ 7 (some "x")).val = 7 ∧
    (tweak_timeout_double sampleEnv ⟨.fin 0, .fin 10, "off"⟩ (.fin 3) (some "x")).val = .fin 3 ∧
    (tweak_generic_double sampleEnv ⟨.fin 0, .fin 10, "off"⟩ (.fin 3) (some "x")).val = .fin 3 ∧
    (tweak_bool ⟨.fin 0, .fin 10, "off"⟩ 1 (some "x")).val = 1 ∧
    (tweak_generic_uint 7 (some "x") 0 10).val = 7 ∧
    (∃ r, tweak_bytes sampleEnv ⟨.fin 0, .fin 10, "off"⟩ 7 (some "x") = some r ∧
      (some "x" = none ∨ r.ret ≠ 0 → r.val = 7)) ∧
    (∃ r, tweak_bytes_u sampleEnv ⟨.fin 0, .fin 10, "off"⟩ 7 (some "x") = some r ∧
      (some "x" = none ∨ r.ret ≠ 0 → r.val = 7)) ∧
    (tweak_bytes_u sampleEnv ⟨.fin 0, .fin 10, "off"⟩ 7 (some "x")).map Res.ret = some (-1) :=
  have h := tweak_scalar_no_partial_mutation sampleEnv ⟨.fin 0, .fin 10, "off"⟩ (some "x")
  ⟨h.1 7 (Or.inr (by decide)), h.2.1 (.fin 3) (Or.inr (by decide)),
    h.2.2.1 (.fin 3) (Or.inr (by decide)), h.2.2.2.1 1 (Or.inr (by decide)),
    h.2.2.2.2.1 7 0 10 (Or.inr (by decide)), h.2.2.2.2.2.1 7 (by decide),
    h.2.2.2.2.2.2 7 (by decide) (by decide) (by decide), by decide⟩

/-! ## The result of `tweak_uint` (C2) -/

/-- C2: `tweak_uint` returns 0 for every descriptor, live value and argument, also
when `tweak_generic_uint` rejected the text: on the descriptor with bounds 0 and 10
and the live value 5, the texts `abc` (not a number), `11` (above max) and, with
bounds 3 and 10, `2` (below min) write the diagnostic, keep the value and return 0. -/
theorem tweak_uint_returns_zero :
    (∀ (par : parspec) (dest : Nat) (arg : Option String), (tweak_uint par dest arg).ret = 0) ∧
    tweak_uint ⟨.fin 0, .fin 10, "5"⟩ 5 (some "abc") = ⟨0, "Not a number (abc)\n", 5⟩ ∧
    tweak_uint ⟨.fin 0, .fin 10, "5"⟩ 5 (some "11") = ⟨0, "Must be no more than 10\n", 5⟩ ∧
    tweak_uint ⟨.fin 3, .fin 10, "5"⟩ 5 (some "2") = ⟨0, "Must be at least 3\n", 5⟩ ∧
    (tweak_generic_uint 5 (some "abc") 0 10).ret = -1 := by
  refine ⟨fun _ _ _ => rfl, ?_, ?_, ?_, ?_⟩ <;> decide

/-! ## Bounds of `tweak_generic_uint` (C5) -/

/-- C5: the `unsigned long` that `strtoul` returns is reduced to 32 bits before the
bounds are checked: with bounds 0 and 10 the decimal literals of `2^32` and
`2^32 + 5` are accepted and 0 and 5 are stored, and with bounds 0 and `UINT_MAX` the
literal of `10^20`, which `strtoul` returns as `ULONG_MAX`, stores `UINT_MAX`. -/
theorem tweak_generic_uint_truncates :
    tweak_generic_uint 7 (some "4294967296") 0 10 = ⟨0, "", 0⟩ ∧
    tweak_generic_uint 7 (some "4294967301") 0 10 = ⟨0, "", 5⟩ ∧
    tweak_generic_uint 7 (some "100000000000000000000") 0 4294967295 = ⟨0, "", 4294967295⟩ ∧
    strtoul "4294967296".data = (4294967296, []) := by
  decide

/-! ## The capacity check of `tweak_generic_bytes` (C6) -/

theorem to_uintmax_to_ssize (r : Nat) : to_uintmax (to_ssize r) = r % 18446744073709551616 := by
  simp only [to_uintmax, to_ssize]
  split_ifs <;> omega

/-- C6: converting a `uintmax_t` to the 64-bit `ssize_t` and back gives the value
again, so the capacity check never fires; with bounds 0 and 0 the count `2^63`
is accepted by `tweak_bytes` and stored as `-2^63`, and so is `2^64 - 1`, as -1. -/
theorem tweak_bytes_capacity_check_vacuous :
    (∀ r : Nat, to_uintmax (to_ssize r) = r % 18446744073709551616) ∧
    tweak_bytes sampleEnv ⟨.fin 0, .fin 0, "0"⟩ 0 (some "9223372036854775808") =
      some ⟨0, "", -9223372036854775808⟩ ∧
    tweak_bytes sampleEnv ⟨.fin 0, .fin 0, "0"⟩ 0 (some "18446744073709551615") =
      some ⟨0, "", -1⟩ ∧
    sampleEnv.VNUM_2bytes "9223372036854775808" = .ok 9223372036854775808 := by
  exact ⟨to_uintmax_to_ssize, by decide, by decide, rfl⟩

/-! ## Bounds of `tweak_generic_bytes` (C7) -/

theorem bitlen_le (fuel n k : Nat) (h : n < 2 ^ k) : bitlen fuel n ≤ k := by
  induction fuel generalizing n k with
  | zero => simp [bitlen]
  | succ f ih =>
    rw [bitlen]
    split_ifs with h0
    · omega
    · cases k with
      | zero => simp at h; omega
      | succ k =>
        have : n / 2 < 2 ^ k := by
          rw [pow_succ] at h
          omega
        have := ih (n / 2) k this
        omega

theorem pow_bitlen_le (fuel n : Nat) (h : n ≠ 0) : 2 ^ (bitlen fuel n - 1) ≤ n := by
  induction fuel generalizing n with
  | zero => simp [bitlen]; omega
  | succ f ih =>
    rw [bitlen, if_neg h]
    simp only [Nat.add_sub_cancel]
    by_cases h2 : n / 2 = 0
    · rw [h2]
      have : bitlen f 0 = 0 := by cases f <;> simp [bitlen]
      rw [this]
      simp
      omega
    · have := ih (n / 2) h2
      by_cases hb : bitlen f (n / 2) = 0
      · rw [hb]; simp; omega
      · have e : bitlen f (n / 2) = (bitlen f (n / 2) - 1) + 1 := by omega
        rw [e, pow_succ]
        omega

/-- A count of at most `2^53` is converted to `double` exactly. -/
theorem round53_small (r : Nat) (h : r ≤ 9007199254740992) : round53 r = r := by
  by_cases h2 : r = 9007199254740992
  · subst h2; decide
  · have hb : bitlen 64 r - 53 = 0 := by
      have := bitlen_le 64 r 53 (by norm_num; omega)
      omega
    simp [round53, hb, Nat.mod_one]

/-- A count of at least `2^53` is converted to a `double` of at least `2^53`. -/
theorem round53_large (r : Nat) (h : 9007199254740992 ≤ r) :
    9007199254740992 ≤ round53 r := by
  have hq : 9007199254740992 ≤ r / 2 ^ (bitlen 64 r - 53) * 2 ^ (bitlen 64 r - 53) := by
    by_cases hb : bitlen 64 r ≤ 53
    · have e : bitlen 64 r - 53 = 0 := by omega
      rw [e]; simpa using h
    · have hp := pow_bitlen_le 64 r (by omega)
      obtain ⟨s, hs⟩ : ∃ s, bitlen 64 r = 53 + (s + 1) := ⟨bitlen 64 r - 54, by omega⟩
      have e1 : bitlen 64 r - 53 = s + 1 := by omega
      have e2 : bitlen 64 r - 1 = 52 + (s + 1) := by omega
      rw [e2, pow_add] at hp
      rw [e1]
      have h52 : 2 ^ 52 ≤ r / 2 ^ (s + 1) := by
        rw [Nat.le_div_iff_mul_le (by positivity)]
        exact hp
      have h2 : 2 ≤ 2 ^ (s + 1) := by
        rw [pow_succ]
        have : 0 < 2 ^ s := by positivity
        omega
      calc 9007199254740992 = 2 ^ 52 * 2 := by norm_num
        _ ≤ r / 2 ^ (s + 1) * 2 ^ (s + 1) := Nat.mul_le_mul h52 h2
  unfold round53
  dsimp only
  split_ifs
  · calc 9007199254740992 ≤ r / 2 ^ (bitlen 64 r - 53) * 2 ^ (bitlen 64 r - 53) := hq
      _ ≤ (r / 2 ^ (bitlen 64 r - 53) + 1) * 2 ^ (bitlen 64 r - 53) :=
        Nat.mul_le_mul_right _ (Nat.le_succ _)
  · exact hq

theorem to_ssize_small (r : Nat) (h : r < 9223372036854775808) : to_ssize r = (r : Int) := by
  simp only [to_ssize]
  rw [if_pos (by omega)]
  congr 1
  omega

/-- A set of `tweak_generic_bytes` whose text decodes to `r`: only the two bound
checks decide. -/
theorem tweak_generic_bytes_decoded (E : Env) (dest : Int) (a : String) (r : Nat)
    (min max : Double) (hdec : E.VNUM_2bytes a = .ok r) (hr : r < 18446744073709551616) :
    tweak_generic_bytes E dest (some a) min max =
      if max.ne0 ∧ Double.lt max (of_uintmax r) then
        ⟨-1, "Must be no more than " ++ fmt_bytes max.to_uintmax ++ "\n", dest⟩
      else if Double.lt (of_uintmax r) min then
        ⟨-1, "Must be at least " ++ fmt_bytes min.to_uintmax ++ "\n", dest⟩
      else ⟨0, "", to_ssize r⟩ := by
  rw [tweak_generic_bytes, hdec]
  dsimp only
  rw [Nat.mod_eq_of_lt hr, to_uintmax_to_ssize, Nat.mod_eq_of_lt hr, if_neg (by simp)]

theorem rat_floor_intCast (z : Int) : Rat.floor (z : ℚ) = z := by
  show ⌊(z : ℚ)⌋ = z
  exact Int.floor_intCast z

theorem to_uintmax_fin_int (z : Int) :
    Double.to_uintmax (.fin (z : ℚ)) = z.toNat % 18446744073709551616 := by
  simp only [Double.to_uintmax, rat_floor_intCast]

theorem to_uintmax_fin_nat (n : Nat) :
    Double.to_uintmax (.fin (n : ℚ)) = n % 18446744073709551616 := by
  have := to_uintmax_fin_int (n : Int)
  simpa using this

/-- The two bound checks of `tweak_generic_bytes` on integer-valued bounds, as
comparisons of integers. -/
theorem tweak_generic_bytes_int_bounds (E : Env) (dest : Int) (a : String) (r mn : Nat)
    (mx : Int) (hdec : E.VNUM_2bytes a = .ok r) (hr : r < 9223372036854775808) :
    tweak_generic_bytes E dest (some a) (.fin (mn : ℚ)) (.fin (mx : ℚ)) =
      if mx ≠ 0 ∧ mx < (round53 r : Int) then
        ⟨-1, "Must be no more than " ++ fmt_bytes (mx.toNat % 18446744073709551616) ++ "\n",
          dest⟩
      else if round53 r < mn then
        ⟨-1, "Must be at least " ++ fmt_bytes (mn % 18446744073709551616) ++ "\n", dest⟩
      else ⟨0, "", (r : Int)⟩ := by
  rw [tweak_generic_bytes_decoded E dest a r _ _ hdec (by omega), to_ssize_small r hr,
    to_uintmax_fin_int, to_uintmax_fin_nat]
  have e1 : (Double.ne0 (.fin (mx : ℚ)) = true ∧
      Double.lt (.fin (mx : ℚ)) (of_uintmax r) = true) ↔ (mx ≠ 0 ∧ mx < (round53 r : Int)) := by
    simp only [Double.ne0, Double.lt, of_uintmax, decide_eq_true_eq, ne_eq, Int.cast_eq_zero]
    constructor
    · rintro ⟨h1, h2⟩; exact ⟨h1, by exact_mod_cast h2⟩
    · rintro ⟨h1, h2⟩; exact ⟨h1, by exact_mod_cast h2⟩
  have e2 : Double.lt (of_uintmax r) (.fin (mn : ℚ)) = true ↔ round53 r < mn := by
    simp only [Double.lt, of_uintmax, decide_eq_true_eq, Nat.cast_lt]
  by_cases c1 : mx ≠ 0 ∧ mx < (round53 r : Int)
  · rw [if_pos c1, if_pos (e1.mpr c1)]
  · rw [if_neg c1, if_neg (fun h => c1 (e1.mp h))]
    by_cases c2 : round53 r < mn
    · rw [if_pos c2, if_pos (e2.mpr c2)]
    · rw [if_neg c2, if_neg (fun h => c2 (e2.mp h))]

/-- The bound checks of `tweak_generic_bytes` in terms of `d = round53 r`, the count
converted to `double`: for integer-valued bounds `mn >= 0` and `mx` and a count `r`
representable as a signed size, the set succeeds if and only if (`mx = 0` or
`d <= mx`) and `d >= mn`, and then stores `r`; a bound violation leaves the value
unchanged and names the crossed bound; `d = r` for `r <= 2^53`. -/
theorem tweak_generic_bytes_bounds_double (E : Env) (dest : Int) (a : String) (r mn : Nat)
    (mx : Int) (hdec : E.VNUM_2bytes a = .ok r) (hr : r < 9223372036854775808) :
    ((tweak_generic_bytes E dest (some a) (.fin (mn : ℚ)) (.fin (mx : ℚ))).ret = 0 ↔
      (mx = 0 ∨ (round53 r : Int) ≤ mx) ∧ mn ≤ round53 r) ∧
    ((tweak_generic_bytes E dest (some a) (.fin (mn : ℚ)) (.fin (mx : ℚ))).ret = 0 →
      (tweak_generic_bytes E dest (some a) (.fin (mn : ℚ)) (.fin (mx : ℚ))).val = (r : Int)) ∧
    (mx ≠ 0 ∧ mx < (round53 r : Int) →
      tweak_generic_bytes E dest (some a) (.fin (mn : ℚ)) (.fin (mx : ℚ)) =
        ⟨-1, "Must be no more than " ++ fmt_bytes (mx.toNat % 18446744073709551616) ++ "\n",
          dest⟩) ∧
    (¬ (mx ≠ 0 ∧ mx < (round53 r : Int)) → round53 r < mn →
      tweak_generic_bytes E dest (some a) (.fin (mn : ℚ)) (.fin (mx : ℚ)) =
        ⟨-1, "Must be at least " ++ fmt_bytes (mn % 18446744073709551616) ++ "\n", dest⟩) ∧
    (r ≤ 9007199254740992 → round53 r = r) ∧
    (mn ≤ 9007199254740992 → mx < 9007199254740992 →
      ((tweak_generic_bytes E dest (some a) (.fin (mn : ℚ)) (.fin (mx : ℚ))).ret = 0 ↔
        (mx = 0 ∨ (r : Int) ≤ mx) ∧ mn ≤ r)) := by
  have key := tweak_generic_bytes_int_bounds E dest a r mn mx hdec hr
  have hiff : (tweak_generic_bytes E dest (some a) (.fin (mn : ℚ)) (.fin (mx : ℚ))).ret = 0 ↔
      (mx = 0 ∨ (round53 r : Int) ≤ mx) ∧ mn ≤ round53 r := by
    rw [key]
    by_cases c1 : mx ≠ 0 ∧ mx < (round53 r : Int)
    · rw [if_pos c1]
      constructor
      · intro h; exact absurd h (by decide : ¬ ((-1 : Int) = 0))
      · rintro ⟨h1, _⟩; omega
    · rw [if_neg c1]
      by_cases c2 : round53 r < mn
      · rw [if_pos c2]
        constructor
        · intro h; exact absurd h (by decide : ¬ ((-1 : Int) = 0))
        · rintro ⟨_, h2⟩; omega
      · rw [if_neg c2]
        constructor
        · intro _
          constructor
          · by_cases h0 : mx = 0
            · exact Or.inl h0
            · right; by_contra hc; exact c1 ⟨h0, by omega⟩
          · omega
        · intro _; rfl
  refine ⟨hiff, ?_, ?_, ?_, round53_small r, ?_⟩
  · rw [key]
    by_cases c1 : mx ≠ 0 ∧ mx < (round53 r : Int)
    · rw [if_pos c1]; intro h; exact absurd h (by decide : ¬ ((-1 : Int) = 0))
    · rw [if_neg c1]
      by_cases c2 : round53 r < mn
      · rw [if_pos c2]; intro h; exact absurd h (by decide : ¬ ((-1 : Int) = 0))
      · rw [if_neg c2]; intro _; rfl
  · intro c1
    rw [key, if_pos c1]
  · intro c1 c2
    rw [key, if_neg c1, if_pos c2]
  · intro hmn hmx
    rw [hiff]
    by_cases hs : r ≤ 9007199254740992
    · rw [round53_small r hs]
    · have hl := round53_large r (by omega)
      constructor
      · rintro ⟨h1, h2⟩
        rcases h1 with h1 | h1
        · exact ⟨Or.inl h1, by omega⟩
        · omega
      · rintro ⟨h1, h2⟩
        rcases h1 with h1 | h1
        · exact ⟨Or.inl h1, by omega⟩
        · omega

/-- A count `m * 2^e` with a significand `m` below `2^53` is converted to `double`
exactly. -/
theorem round53_significand (m e : Nat) (hm : m < 9007199254740992) :
    round53 (m * 2 ^ e) = m * 2 ^ e := by
  have hlt : m * 2 ^ e < 2 ^ (53 + e) := by
    rw [pow_add]
    exact Nat.mul_lt_mul_of_pos_right (by norm_num; omega) (by positivity)
  have hb := bitlen_le 64 (m * 2 ^ e) (53 + e) hlt
  obtain ⟨s, hs, hse⟩ : ∃ s, bitlen 64 (m * 2 ^ e) - 53 = s ∧ s ≤ e := ⟨_, rfl, by omega⟩
  have hd : 2 ^ s ∣ m * 2 ^ e := Dvd.dvd.mul_left (pow_dvd_pow 2 hse) m
  have hpos : 0 < 2 ^ s := by positivity
  unfold round53
  simp only [hs, Nat.mod_eq_zero_of_dvd hd, Nat.mul_zero]
  rw [if_neg (by omega)]
  exact Nat.div_mul_cancel hd

/-- C7: bound check of the byte-size set `tweak_generic_bytes`. For integer-valued
bounds `mn >= 0` and `mx`, and every argument that decodes to a count `r`
representable as a signed size, `r` being a count that a `double` holds exactly
(`round53 r = r`: the decoder computes its count in a `double`; every `r <= 2^53`
is such a count): the set succeeds if and only if (`mx = 0` or `r <= mx`) and
`r >= mn`; on success the live value equals `r`; `mx = 0` imposes no upper bound;
on a bound violation the value is unchanged and the diagnostic is "Must be no more
than " or "Must be at least " followed by the crossed bound rendered by
`fmt_bytes`. -/
theorem tweak_generic_bytes_bounds (E : Env) (dest : Int) (a : String) (r mn : Nat)
    (mx : Int) (hdec : E.VNUM_2bytes a = .ok r) (hr : r < 9223372036854775808)
    (hrep : round53 r = r) :
    ((tweak_generic_bytes E dest (some a) (.fin (mn : ℚ)) (.fin (mx : ℚ))).ret = 0 ↔
      (mx = 0 ∨ (r : Int) ≤ mx) ∧ mn ≤ r) ∧
    ((tweak_generic_bytes E dest (some a) (.fin (mn : ℚ)) (.fin (mx : ℚ))).ret = 0 →
      (tweak_generic_bytes E dest (some a) (.fin (mn : ℚ)) (.fin (mx : ℚ))).val = (r : Int)) ∧
    (mx = 0 →
      ((tweak_generic_bytes E dest (some a) (.fin (mn : ℚ)) (.fin (mx : ℚ))).ret = 0 ↔
        mn ≤ r)) ∧
    (mx ≠ 0 ∧ mx < (r : Int) →
      tweak_generic_bytes E dest (some a) (.fin (mn : ℚ)) (.fin (mx : ℚ)) =
        ⟨-1, "Must be no more than " ++ fmt_bytes (mx.toNat % 18446744073709551616) ++ "\n",
          dest⟩) ∧
    (¬ (mx ≠ 0 ∧ mx < (r : Int)) → r < mn →
      tweak_generic_bytes E dest (some a) (.fin (mn : ℚ)) (.fin (mx : ℚ)) =
        ⟨-1, "Must be at least " ++ fmt_bytes (mn % 18446744073709551616) ++ "\n", dest⟩) := by
  have h := tweak_generic_bytes_bounds_double E dest a r mn mx hdec hr
  rw [hrep] at h
  refine ⟨h.1, h.2.1, fun h0 => ?_, h.2.2.1, h.2.2.2.1⟩
  rw [h.1]
  constructor
  · intro hc; exact hc.2
  · intro hc; exact ⟨Or.inl h0, hc⟩

/-- Witness of C7: the text `4096` against the bounds 1024 and 65536. -/
theorem tweak_generic_bytes_bounds_witness :
    sampleEnv.VNUM_2bytes "4096" = .ok 4096 ∧ round53 4096 = 4096 ∧
    ((tweak_generic_bytes sampleEnv 0 (some "4096") (.fin ((1024 : Nat) : ℚ))
        (.fin ((65536 : Int) : ℚ))).ret = 0 ↔
      ((65536 : Int) = 0 ∨ ((4096 : Nat) : Int) ≤ 65536) ∧ 1024 ≤ 4096) ∧
    tweak_generic_bytes sampleEnv 0 (some "4096") (.fin 1024) (.fin 65536) =
      ⟨0, "", 4096⟩ ∧
    tweak_generic_bytes sampleEnv 0 (some "4096") (.fin 1024) (.fin 2048) =
      ⟨-1, "Must be no more than 2k\n", 0⟩ ∧
    tweak_generic_bytes sampleEnv 0 (some "4096") (.fin 8192) (.fin 0) =
      ⟨-1, "Must be at least 8k\n", 0⟩ :=
  ⟨rfl, by decide,
    (tweak_generic_bytes_bounds sampleEnv 0 "4096" 4096 1024 65536 rfl (by decide)
      (by decide)).1,
    by decide, by decide, by decide⟩

/-! ## The pool invariant (C3) -/

/-- A successful set of `tweak_generic_uint` stores the value read, within bounds. -/
theorem tweak_generic_uint_ok (dest : Nat) (a : String) (min max : Nat) :
    (tweak_generic_uint dest (some a) min max).ret = 0 →
    tweak_generic_uint dest (some a) min max = ⟨0, "", uint_value a⟩ ∧
      min ≤ uint_value a ∧ uint_value a ≤ max := by
  rw [tweak_generic_uint, uint_value]
  generalize strcasecmp a.data "unlimited".data = c
  generalize strtoul a.data = s
  by_cases hc : c = 0
  · simp only [hc, decide_True, if_true, not_true_eq_false, false_and, if_false]
    by_cases h1 : UINT_MAX < min
    · rw [if_pos h1]; intro h; exact absurd h (by decide : ¬ ((-1 : Int) = 0))
    · rw [if_neg h1]
      by_cases h2 : UINT_MAX > max
      · rw [if_pos h2]; intro h; exact absurd h (by decide : ¬ ((-1 : Int) = 0))
      · rw [if_neg h2]; intro _; exact ⟨rfl, by omega, by omega⟩
  · simp only [hc, decide_False, if_false, not_false_eq_true, true_and, Bool.false_eq_true]
    by_cases h0 : a = "" ∨ s.2 ≠ []
    · rw [if_pos h0]; intro h; exact absurd h (by decide : ¬ ((-1 : Int) = 0))
    · rw [if_neg h0]
      by_cases h1 : to_unsigned s.1 < min
      · rw [if_pos h1]; intro h; exact absurd h (by decide : ¬ ((-1 : Int) = 0))
      · rw [if_neg h1]
        by_cases h2 : to_unsigned s.1 > max
        · rw [if_pos h2]; intro h; exact absurd h (by decide : ¬ ((-1 : Int) = 0))
        · rw [if_neg h2]; intro _; exact ⟨rfl, by omega, by omega⟩

/-- A successful set of `tweak_generic_timeout_double` stores the number read. -/
theorem tweak_generic_timeout_double_ok (E : Env) (dest : Double) (a : String)
    (min max : Double) : (tweak_generic_timeout_double E dest (some a) min max).ret = 0 →
    tweak_generic_timeout_double E dest (some a) min max = ⟨0, "", (E.strtod a).1⟩ := by
  rw [tweak_generic_timeout_double]
  generalize E.strtod a = s
  split_ifs <;> first | (intro h; exact absurd h (by decide : ¬ ((-1 : Int) = 0))) | (intro _; rfl)

/-- What a call of `tweak_poolparam` that returns leaves behind. -/
theorem tweak_poolparam_spec (E : Env) (par : parspec) (pp : poolparam)
    (arg : Option String) (r : Res poolparam) (h : tweak_poolparam E par pp arg = some r) :
    (pp.min_pool ≤ pp.max_pool → r.val.min_pool ≤ r.val.max_pool) ∧
    (arg = none ∨ r.ret ≠ 0 → r.val = pp) ∧
    (∀ a, arg = some a → r.ret = 0 →
      ∃ a1 a2 a3 rest, E.VAV_Parse a = some (none, a1 :: a2 :: a3 :: rest) ∧
        r.val = ⟨uint_value a1, uint_value a2, (E.strtod a3).1⟩ ∧
        par.min.to_uint ≤ r.val.min_pool ∧ r.val.min_pool ≤ r.val.max_pool ∧
        r.val.max_pool ≤ par.max.to_uint) := by
  cases arg with
  | none =>
    rw [tweak_poolparam] at h
    injection h with h
    subst h
    exact ⟨fun hp => hp, fun _ => rfl, fun a ha => nomatch ha⟩
  | some a =>
    rw [tweak_poolparam] at h
    cases hv : E.VAV_Parse a with
    | none => rw [hv] at h; exact nomatch h
    | some v =>
      obtain ⟨e, fields⟩ := v
      rw [hv] at h
      cases e with
      | some msg =>
        injection h with h
        subst h
        exact ⟨fun hp => hp, fun _ => rfl, fun _ _ h0 => absurd h0 (by decide : ¬ ((-1 : Int) = 0))⟩
      | none =>
        match fields, hv with
        | [], _ =>
          injection h with h
          subst h
          exact ⟨fun hp => hp, fun _ => rfl, fun _ _ h0 => absurd h0 (by decide : ¬ ((-1 : Int) = 0))⟩
        | [_], _ =>
          injection h with h
          subst h
          exact ⟨fun hp => hp, fun _ => rfl, fun _ _ h0 => absurd h0 (by decide : ¬ ((-1 : Int) = 0))⟩
        | [_, _], _ =>
          injection h with h
          subst h
          exact ⟨fun hp => hp, fun _ => rfl, fun _ _ h0 => absurd h0 (by decide : ¬ ((-1 : Int) = 0))⟩
        | a1 :: a2 :: a3 :: rest, hv =>
          dsimp only at h
          by_cases c1 : (tweak_generic_uint pp.min_pool (some a1) par.min.to_uint
              par.max.to_uint).ret ≠ 0
          · rw [if_pos c1] at h
            injection h with h
            subst h
            exact ⟨fun hp => hp, fun _ => rfl, fun _ _ h0 => absurd h0 c1⟩
          rw [if_neg c1] at h
          by_cases c2 : (tweak_generic_uint pp.max_pool (some a2) par.min.to_uint
              par.max.to_uint).ret ≠ 0
          · rw [if_pos c2] at h
            injection h with h
            subst h
            exact ⟨fun hp => hp, fun _ => rfl, fun _ _ h0 => absurd h0 c2⟩
          rw [if_neg c2] at h
          by_cases c3 : (tweak_generic_timeout_double E pp.max_age (some a3) (Double.fin 0)
              (Double.fin 1000000)).ret ≠ 0
          · rw [if_pos c3] at h
            injection h with h
            subst h
            exact ⟨fun hp => hp, fun _ => rfl, fun _ _ h0 => absurd h0 c3⟩
          rw [if_neg c3] at h
          obtain ⟨e1, l1, u1⟩ := tweak_generic_uint_ok _ _ _ _ (not_not.mp c1)
          obtain ⟨e2, l2, u2⟩ := tweak_generic_uint_ok _ _ _ _ (not_not.mp c2)
          have e3 := tweak_generic_timeout_double_ok _ _ _ _ _ (not_not.mp c3)
          rw [e1, e2, e3] at h
          dsimp only at h
          by_cases c4 : uint_value a1 > uint_value a2
          · rw [if_pos c4] at h
            injection h with h
            subst h
            exact ⟨fun hp => hp, fun _ => rfl,
              fun _ _ h0 => absurd h0 (by decide : ¬ ((-1 : Int) = 0))⟩
          · rw [if_neg c4] at h
            injection h with h
            subst h
            refine ⟨fun _ => Nat.le_of_not_gt c4, fun hf => ?_, fun b hb _ => ?_⟩
            · rcases hf with hf | hf
              · exact nomatch hf
              · exact absurd rfl hf
            · injection hb with hb
              subst hb
              exact ⟨a1, a2, a3, rest, hv, rfl, l1, Nat.le_of_not_gt c4, u2⟩

/-- The function `tweak_poolparam` returns whenever `VAV_Parse` gives a vector. -/
theorem tweak_poolparam_returns (E : Env) (par : parspec) (pp : poolparam)
    (arg : Option String) (hv : ∀ a, arg = some a → E.VAV_Parse a ≠ none) :
    ∃ r, tweak_poolparam E par pp arg = some r := by
  cases arg with
  | none => exact ⟨_, rfl⟩
  | some a =>
    rw [tweak_poolparam]
    cases hp : E.VAV_Parse a with
    | none => exact absurd hp (hv a rfl)
    | some v =>
      obtain ⟨e, fields⟩ := v
      cases e with
      | some msg => exact ⟨_, rfl⟩
      | none =>
        match fields with
        | [] => exact ⟨_, rfl⟩
        | [_] => exact ⟨_, rfl⟩
        | [_, _] => exact ⟨_, rfl⟩
        | a1 :: a2 :: a3 :: rest =>
          dsimp only
          generalize tweak_generic_uint pp.min_pool (some a1) par.min.to_uint
            par.max.to_uint = r1
          generalize tweak_generic_uint pp.max_pool (some a2) par.min.to_uint
            par.max.to_uint = r2
          generalize tweak_generic_timeout_double E pp.max_age (some a3) (Double.fin 0)
            (Double.fin 1000000) = r3
          split_ifs <;> exact ⟨_, rfl⟩

/-- C3: `tweak_poolparam` keeps the pool invariant. For every descriptor and every
argument (that `VAV_Parse` turns into a vector) the call returns, and: if
`min_pool <= max_pool` holds in the live triple before the call it holds after it;
a query and a failing set leave the triple unchanged; a successful set has split
the argument into at least three fields, each accepted by its rule, and overwrites
the triple with the three values read, and then
`min <= min_pool <= max_pool <= max` for the descriptor's bounds as `unsigned`. -/
theorem tweak_poolparam_invariant (E : Env) (par : parspec) (pp : poolparam)
    (arg : Option String) (hv : ∀ a, arg = some a → E.VAV_Parse a ≠ none) :
    ∃ r, tweak_poolparam E par pp arg = some r ∧
      (pp.min_pool ≤ pp.max_pool → r.val.min_pool ≤ r.val.max_pool) ∧
      (arg = none ∨ r.ret ≠ 0 → r.val = pp) ∧
      (∀ a, arg = some a → r.ret = 0 →
        ∃ a1 a2 a3 rest, E.VAV_Parse a = some (none, a1 :: a2 :: a3 :: rest) ∧
          r.val = ⟨uint_value a1, uint_value a2, (E.strtod a3).1⟩ ∧
          par.min.to_uint ≤ r.val.min_pool ∧ r.val.min_pool ≤ r.val.max_pool ∧
          r.val.max_pool ≤ par.max.to_uint) := by
  obtain ⟨r, hr⟩ := tweak_poolparam_returns E par pp arg hv
  exact ⟨r, hr, tweak_poolparam_spec E par pp arg r hr⟩

/-- Witness of C3: on the triple (2, 3, 4) with bounds 1 and 100, the text
`10,5,1.0` fails with the invariant message and leaves the triple unchanged, and
the text `5,10,1.0` succeeds and stores (5, 10, 1). -/
theorem tweak_poolparam_invariant_witness :
    tweak_poolparam sampleEnv ⟨.fin 1, .fin 100, ""⟩ ⟨2, 3, .fin 4⟩ (some "10,5,1.0") =
      some ⟨-1, "min_pool cannot be larger than max_pool\n", ⟨2, 3, .fin 4⟩⟩ ∧
    tweak_poolparam sampleEnv ⟨.fin 1, .fin 100, ""⟩ ⟨2, 3, .fin 4⟩ (some "5,10,1.0") =
      some ⟨0, "", ⟨5, 10, .fin 1⟩⟩ ∧
    (∃ r, tweak_poolparam sampleEnv ⟨.fin 1, .fin 100, ""⟩ ⟨2, 3, .fin 4⟩
        (some "10,5,1.0") = some r ∧
      ((2 : Nat) ≤ 3 → r.val.min_pool ≤ r.val.max_pool) ∧
      (some "10,5,1.0" = none ∨ r.ret ≠ 0 → r.val = ⟨2, 3, .fin 4⟩)) :=
  ⟨by decide, by decide,
    (tweak_poolparam_invariant sampleEnv ⟨.fin 1, .fin 100, ""⟩ ⟨2, 3, .fin 4⟩
      (some "10,5,1.0") (fun a _ => by simp [sampleEnv])).imp
      (fun _ h => ⟨h.1, h.2.1, h.2.2.1⟩)⟩

/-! ## Listen addresses: build, then swap (C4) -/

theorem clean_listen_sock_head_nil {A : Type} (l : List (listen_sock A)) :
    clean_listen_sock_head l = [] := by
  induction l with
  | nil => rfl
  | cons _ _ ih => rw [clean_listen_sock_head, ih]

theorem listen_commit_eq {A : Type} (lsh socks : List (listen_sock A)) (n : Nat) :
    listen_commit lsh socks n = (socks ++ lsh, n + lsh.length) := by
  induction lsh generalizing socks n with
  | nil => simp [listen_commit]
  | cons ls rest ih =>
    rw [listen_commit, ih]
    simp only [List.append_assoc, List.singleton_append, List.length_cons, Prod.mk.injEq,
      true_and]
    omega

theorem listen_resolve_good {A : Type} (E : Env) (R : String → List A) (tokens : List String)
    (lsh : List (listen_sock A)) (h : ∀ x ∈ tokens, R x ≠ []) :
    listen_resolve E R tokens lsh =
      (0, "", lsh ++ (tokens.map (fun x => (R x).map (fun ad => ⟨-1, ad, x⟩))).flatten) := by
  induction tokens generalizing lsh with
  | nil => simp [listen_resolve]
  | cons t ts ih =>
    have ht : ¬ (R t).length = 0 := by
      intro h0
      exact h t (List.mem_cons_self _ _) (List.length_eq_zero.mp h0)
    rw [listen_resolve, if_neg ht, ih _ (fun x hx => h x (List.mem_cons_of_mem _ hx))]
    simp only [List.map_cons, List.flatten_cons, List.append_assoc]

theorem listen_resolve_bad {A : Type} (E : Env) (R : String → List A) (pre : List String)
    (bad : String) (post : List String) (lsh : List (listen_sock A))
    (h : ∀ x ∈ pre, R x ≠ []) (hb : R bad = []) :
    listen_resolve E R (pre ++ bad :: post) lsh =
      (-1, "Invalid listen address " ++ E.VSB_quote bad,
        lsh ++ (pre.map (fun x => (R x).map (fun ad => ⟨-1, ad, x⟩))).flatten) := by
  induction pre generalizing lsh with
  | nil =>
    rw [List.nil_append, listen_resolve, if_pos (by rw [hb]; rfl)]
    simp
  | cons t ts ih =>
    have ht : ¬ (R t).length = 0 := by
      intro h0
      exact h t (List.mem_cons_self _ _) (List.length_eq_zero.mp h0)
    rw [List.cons_append, listen_resolve, if_neg ht,
      ih _ (fun x hx => h x (List.mem_cons_of_mem _ hx))]
    simp only [List.map_cons, List.flatten_cons, List.append_assoc]

theorem exists_first_unresolved {A : Type} (R : String → List A) (l : List String)
    (h : ∃ x ∈ l, R x = []) :
    ∃ pre bad post, l = pre ++ bad :: post ∧ (∀ x ∈ pre, R x ≠ []) ∧ R bad = [] := by
  induction l with
  | nil => obtain ⟨x, hx, _⟩ := h; exact absurd hx (List.not_mem_nil x)
  | cons t ts ih =>
    by_cases ht : R t = []
    · exact ⟨[], t, ts, rfl, fun x hx => absurd hx (List.not_mem_nil x), ht⟩
    · obtain ⟨x, hx, hx0⟩ := h
      have hx2 : x ∈ ts := by
        rcases List.mem_cons.mp hx with e | e
        · rw [e] at hx0; exact absurd hx0 ht
        · exact e
      obtain ⟨pre, bad, post, e, hpre, hbad⟩ := ih ⟨x, hx2, hx0⟩
      refine ⟨t :: pre, bad, post, by rw [e]; rfl, fun y hy => ?_, hbad⟩
      rcases List.mem_cons.mp hy with e | e
      · rw [e]; exact ht
      · exact hpre y e

/-- C4: `tweak_listen_address` is build-then-swap. For an argument that `VAV_Parse`
splits into the tokens `t :: ts`: if a token resolves to no address, the set fails,
the diagnostic names the first such token, and the live state (display text, record
sequence, count) is unchanged; if every token resolves, the set succeeds, the live
sequence is the concatenation, in token order and then resolver order, of one record
per resolved address (socket handle -1, the address, the token as name), the count
is the length of that sequence, and the display text is the argument. -/
theorem tweak_listen_address_build_then_swap {A : Type} (E : Env) (R : String → List A)
    (st : listen_state A) (a t : String) (ts : List String)
    (hv : E.VAV_Parse a = some (none, t :: ts)) :
    ((∃ x ∈ t :: ts, R x = []) →
      (tweak_listen_address E R st (some a)).ret = -1 ∧
      (tweak_listen_address E R st (some a)).val = st) ∧
    (∀ pre bad post, t :: ts = pre ++ bad :: post → (∀ x ∈ pre, R x ≠ []) → R bad = [] →
      tweak_listen_address E R st (some a) =
        ⟨-1, "Invalid listen address " ++ E.VSB_quote bad, st⟩) ∧
    ((∀ x ∈ t :: ts, R x ≠ []) →
      tweak_listen_address E R st (some a) =
        ⟨0, "", ⟨a, ((t :: ts).map (fun x => (R x).map (fun ad => ⟨-1, ad, x⟩))).flatten,
          (((t :: ts).map (fun x => (R x).map (fun ad =>
            (⟨-1, ad, x⟩ : listen_sock A)))).flatten).length⟩⟩) := by
  have hfail : ∀ pre bad post, t :: ts = pre ++ bad :: post → (∀ x ∈ pre, R x ≠ []) →
      R bad = [] → tweak_listen_address E R st (some a) =
        ⟨-1, "Invalid listen address " ++ E.VSB_quote bad, st⟩ := by
    intro pre bad post hsplit hpre hbad
    rw [tweak_listen_address, hv]
    dsimp only
    rw [hsplit, listen_resolve_bad E R pre bad post [] hpre hbad]
    rw [if_pos (by decide : (-1 : Int) ≠ 0)]
  refine ⟨fun hex => ?_, hfail, ?_⟩
  · obtain ⟨pre, bad, post, e, hpre, hbad⟩ := exists_first_unresolved R (t :: ts) hex
    rw [hfail pre bad post e hpre hbad]
    exact ⟨rfl, rfl⟩
  · intro hall
    rw [tweak_listen_address, hv]
    dsimp only
    rw [listen_resolve_good E R (t :: ts) [] hall]
    rw [if_neg (by decide : ¬ ((0 : Int) ≠ 0)), listen_commit_eq, clean_listen_sock_head_nil]
    simp only [List.nil_append, Nat.zero_add]

/-- Witness of C4: with a resolver that knows `a:80` (two addresses) and `b` (one),
the text `a:80,bad` fails naming `bad` and leaves the state unchanged, and the text
`a:80,b` replaces the state by three records. -/
theorem tweak_listen_address_build_then_swap_witness :
    tweak_listen_address sampleEnv
        (fun s => if s = "a:80" then [4, 6] else if s = "b" then [7] else ([] : List Nat))
        ⟨"old", [⟨3, 1, "old"⟩], 1⟩ (some "a:80,bad") =
      ⟨-1, "Invalid listen address \"bad\"", ⟨"old", [⟨3, 1, "old"⟩], 1⟩⟩ ∧
    tweak_listen_address sampleEnv
        (fun s => if s = "a:80" then [4, 6] else if s = "b" then [7] else ([] : List Nat))
        ⟨"old", [⟨3, 1, "old"⟩], 1⟩ (some "a:80,b") =
      ⟨0, "", ⟨"a:80,b", [⟨-1, 4, "a:80"⟩, ⟨-1, 6, "a:80"⟩, ⟨-1, 7, "b"⟩], 3⟩⟩ :=
  ⟨(tweak_listen_address_build_then_swap sampleEnv
      (fun s => if s = "a:80" then [4, 6] else if s = "b" then [7] else ([] : List Nat))
      ⟨"old", [⟨3, 1, "old"⟩], 1⟩ "a:80,bad" "a:80" ["bad"] (by decide)).2.1
      ["a:80"] "bad" [] rfl (by decide) (by decide),
    (tweak_listen_address_build_then_swap sampleEnv
      (fun s => if s = "a:80" then [4, 6] else if s = "b" then [7] else ([] : List Nat))
      ⟨"old", [⟨3, 1, "old"⟩], 1⟩ "a:80,b" "a:80" ["b"] (by decide)).2.2 (by decide)⟩

/-! ## The `unlimited` sentinel (C9) -/

theorem digitChar_ne_u : ∀ d < 10, digitChar d ≠ 'u' := by
  decide

/-- Every text `decimal` writes starts with a decimal digit. -/
theorem decimal_head_digit (fuel n : Nat) :
    ∃ d tl, d < 10 ∧ decimal fuel n = digitChar d :: tl := by
  induction fuel generalizing n with
  | zero => exact ⟨n % 10, [], Nat.mod_lt _ (by omega), rfl⟩
  | succ f ih =>
    by_cases h : n < 10
    · exact ⟨n, [], h, decimal_lt _ _ h⟩
    · obtain ⟨d, tl, h1, h2⟩ := ih (n / 10)
      exact ⟨d, tl ++ [digitChar (n % 10)], h1, by
        rw [decimal_succ _ _ (by omega), h2]; rfl⟩

theorem printf_u_ne_unlimited (v : Nat) : printf_u v ≠ "unlimited" := by
  obtain ⟨d, tl, hd, e⟩ := decimal_head_digit v v
  intro h
  have h2 : (printf_u v).data = "unlimited".data := by rw [h]
  rw [printf_u, e] at h2
  have h3 : digitChar d = 'u' := by
    injection h2
  exact digitChar_ne_u d hd h3

theorem strcasecmp_decimal_unlimited (v : Nat) :
    strcasecmp (printf_u v).data "unlimited".data ≠ 0 := by
  obtain ⟨d, tl, hd, e⟩ := decimal_head_digit v v
  have hu := (digitChar_facts d hd).2.2.2.2.2
  show strcasecmp (decimal v v) ('u' :: "nlimited".data) ≠ 0
  rw [e, strcasecmp]
  have e2 : tolower 'u' = 'u' := by decide
  rw [e2, if_neg hu]
  intro h0
  apply hu
  apply toNat_inj
  omega

theorem strcasecmp_unlimited (a : String) (ha : eq_nocase a "unlimited") :
    strcasecmp a.data "unlimited".data = 0 := by
  rw [strcasecmp_congr_left _ ha]
  decide

/-- A set of `tweak_generic_uint` with a text that is `unlimited` ignoring case. -/
theorem tweak_generic_uint_unlimited (dest min max : Nat) (a : String)
    (ha : eq_nocase a "unlimited") :
    tweak_generic_uint dest (some a) min max =
      if UINT_MAX < min then ⟨-1, "Must be at least " ++ printf_u min ++ "\n", dest⟩
      else if UINT_MAX > max then ⟨-1, "Must be no more than " ++ printf_u max ++ "\n", dest⟩
      else ⟨0, "", UINT_MAX⟩ := by
  rw [tweak_generic_uint, strcasecmp_unlimited a ha]
  simp only [decide_True, if_true, not_true_eq_false, false_and, if_false]

/-- C9: the `unlimited` sentinel of `tweak_generic_uint`. For bounds of type
`unsigned` and a text that is `unlimited` in any letter case, the set succeeds if
and only if `max` is `UINT_MAX`; when it succeeds the live value is `UINT_MAX` and
the following query writes exactly `unlimited`; a query of the value `UINT_MAX`
writes `unlimited`, and a query of any other value writes the value in decimal,
which is never the text `unlimited`. -/
theorem tweak_generic_uint_unlimited_sentinel (dest min max : Nat) (a : String)
    (ha : eq_nocase a "unlimited") (hmin : min ≤ UINT_MAX) (hmax : max ≤ UINT_MAX) :
    ((tweak_generic_uint dest (some a) min max).ret = 0 ↔ max = UINT_MAX) ∧
    ((tweak_generic_uint dest (some a) min max).ret = 0 →
      (tweak_generic_uint dest (some a) min max).val = UINT_MAX ∧
      (tweak_generic_uint (tweak_generic_uint dest (some a) min max).val none min max).out =
        "unlimited") ∧
    (tweak_generic_uint UINT_MAX none min max).out = "unlimited" ∧
    (∀ v, v ≠ UINT_MAX → (tweak_generic_uint v none min max).out = printf_u v ∧
      printf_u v ≠ "unlimited") := by
  have key := tweak_generic_uint_unlimited dest min max a ha
  have hq : (tweak_generic_uint UINT_MAX none min max).out = "unlimited" := by
    rw [tweak_generic_uint]
    rw [if_pos rfl]
  refine ⟨?_, ?_, hq, ?_⟩
  · rw [key, if_neg (by omega)]
    by_cases h2 : UINT_MAX > max
    · rw [if_pos h2]
      constructor
      · intro h; exact absurd h (by decide : ¬ ((-1 : Int) = 0))
      · intro h; omega
    · rw [if_neg h2]
      constructor
      · intro _; omega
      · intro _; rfl
  · rw [key, if_neg (by omega)]
    by_cases h2 : UINT_MAX > max
    · rw [if_pos h2]
      intro h; exact absurd h (by decide : ¬ ((-1 : Int) = 0))
    · rw [if_neg h2]
      intro _
      exact ⟨rfl, hq⟩
  · intro v hv
    refine ⟨?_, printf_u_ne_unlimited v⟩
    rw [tweak_generic_uint]
    rw [if_neg hv]

/-- Witness of C9: the text `UnLimited` with the bounds 0 and `UINT_MAX`, and the
query of the value 42. -/
theorem tweak_generic_uint_unlimited_sentinel_witness :
    ((tweak_generic_uint 5 (some "UnLimited") 0 4294967295).ret = 0 ↔
      4294967295 = UINT_MAX) ∧
    tweak_generic_uint 5 (some "UnLimited") 0 4294967295 = ⟨0, "", 4294967295⟩ ∧
    tweak_generic_uint 5 (some "UNLIMITED") 0 100 = ⟨-1, "Must be no more than 100\n", 5⟩ ∧
    ((tweak_generic_uint 42 none 0 4294967295).out = printf_u 42 ∧
      printf_u 42 ≠ "unlimited") :=
  ⟨(tweak_generic_uint_unlimited_sentinel 5 0 4294967295 "UnLimited" (by decide)
      (by decide) (by decide)).1, by decide, by decide,
    (tweak_generic_uint_unlimited_sentinel 5 0 4294967295 "UnLimited" (by decide)
      (by decide) (by decide)).2.2.2 42 (by decide)⟩

/-! ## Round trip of the integer-valued scalar tweaks (C8) -/

theorem uint_value_le (a : String) : uint_value a ≤ UINT_MAX := by
  rw [uint_value]
  split_ifs
  · exact le_refl _
  · simp only [to_unsigned, UINT_MAX]; omega

theorem printf_u_ne_empty (v : Nat) : printf_u v ≠ "" := by
  intro h
  have h2 : (printf_u v).data = "".data := by rw [h]
  exact decimal_ne_nil v v h2

/-- A set of `tweak_generic_uint` with the decimal text of a value within bounds. -/
theorem tweak_generic_uint_decimal (dest v min max : Nat) (hv : v ≤ UINT_MAX)
    (h1 : min ≤ v) (h2 : v ≤ max) :
    tweak_generic_uint dest (some (printf_u v)) min max = ⟨0, "", v⟩ := by
  have hs : strtoul (printf_u v).data = (v, []) :=
    strtoul_decimal v (by simp only [UINT_MAX] at hv; simp only [ULONG_MAX]; omega)
  have hu : to_unsigned v = v := by
    simp only [UINT_MAX] at hv
    simp only [to_unsigned]
    omega
  rw [tweak_generic_uint, hs]
  simp only [strcasecmp_decimal_unlimited v, decide_False, Bool.false_eq_true, if_false, hu]
  rw [if_neg (by simp [printf_u_ne_empty v]), if_neg (by omega), if_neg (by omega)]

/-- A set of `tweak_generic_timeout` with the decimal text of a non-zero value. -/
theorem tweak_generic_timeout_decimal (dest v : Nat) (hv : v ≤ UINT_MAX) (h0 : v ≠ 0) :
    tweak_generic_timeout dest (some (printf_u v)) = ⟨0, "", v⟩ := by
  have hs : strtoul (printf_u v).data = (v, []) :=
    strtoul_decimal v (by simp only [UINT_MAX] at hv; simp only [ULONG_MAX]; omega)
  have hu : to_unsigned v = v := by
    simp only [UINT_MAX] at hv
    simp only [to_unsigned]
    omega
  rw [tweak_generic_timeout, hs]
  dsimp only
  rw [hu, if_neg h0]

theorem tweak_bool_words (par : parspec) (dest : Nat) :
    tweak_bool par dest (some "on") = ⟨0, "", 1⟩ ∧
    tweak_bool par dest (some "off") = ⟨0, "", 0⟩ ∧
    tweak_bool par dest (some "true") = ⟨0, "", 1⟩ ∧
    tweak_bool par dest (some "false") = ⟨0, "", 0⟩ :=
  ⟨rfl, rfl, rfl, rfl⟩

/-- A query of `tweak_bool` followed by a set of the text written, on a value that
a set can store. -/
theorem tweak_bool_query_set (par : parspec) (v : Nat) (hv : v = 0 ∨ v = 1) :
    tweak_bool par v (some (tweak_bool par v none).out) = ⟨0, "", v⟩ := by
  obtain ⟨w1, w2, w3, w4⟩ := tweak_bool_words par v
  have hq : (tweak_bool par v none).out =
      if (if par.dflt = "off" ∨ par.dflt = "on" then 1 else 0) ≠ 0 then
        (if v ≠ 0 then "on" else "off") else (if v ≠ 0 then "true" else "false") := by
    rw [tweak_bool]
    by_cases hm : (if par.dflt = "off" ∨ par.dflt = "on" then 1 else 0) ≠ 0
    · rw [if_pos hm, if_pos hm]
    · rw [if_neg hm, if_neg hm]
  rw [hq]
  by_cases hm : (if par.dflt = "off" ∨ par.dflt = "on" then 1 else 0) ≠ 0
  · rw [if_pos hm]
    rcases hv with h | h
    · subst h; rw [if_neg (by decide)]; exact w2
    · subst h; rw [if_pos (by decide)]; exact w1
  · rw [if_neg hm]
    rcases hv with h | h
    · subst h; rw [if_neg (by decide)]; exact w4
    · subst h; rw [if_pos (by decide)]; exact w3

/-- C8: round trip of the integer-valued scalar tweaks. For `tweak_generic_uint`
(any bounds), `tweak_timeout` and `tweak_bool`: after a set that succeeded, the text
a query writes, passed back as the argument of a set on the same descriptor,
succeeds and leaves the live value identical. -/
theorem tweak_integer_round_trip :
    (∀ (dest min max : Nat) (a : String),
      (tweak_generic_uint dest (some a) min max).ret = 0 →
      tweak_generic_uint (tweak_generic_uint dest (some a) min max).val
        (some (tweak_generic_uint (tweak_generic_uint dest (some a) min max).val
          none min max).out) min max =
        ⟨0, "", (tweak_generic_uint dest (some a) min max).val⟩) ∧
    (∀ (par : parspec) (dest : Nat) (a : String),
      (tweak_timeout par dest (some a)).ret = 0 →
      tweak_timeout par (tweak_timeout par dest (some a)).val
        (some (tweak_timeout par (tweak_timeout par dest (some a)).val none).out) =
        ⟨0, "", (tweak_timeout par dest (some a)).val⟩) ∧
    (∀ (par : parspec) (dest : Nat) (a : String),
      (tweak_bool par dest (some a)).ret = 0 →
      tweak_bool par (tweak_bool par dest (some a)).val
        (some (tweak_bool par (tweak_bool par dest (some a)).val none).out) =
        ⟨0, "", (tweak_bool par dest (some a)).val⟩) := by
  refine ⟨?_, ?_, ?_⟩
  · intro dest min max a h
    obtain ⟨e, l, u⟩ := tweak_generic_uint_ok dest a min max h
    rw [e]
    dsimp only
    have hle := uint_value_le a
    generalize uint_value a = v at l u hle
    by_cases hv : v = UINT_MAX
    · have hq : (tweak_generic_uint v none min max).out = "unlimited" := by
        rw [tweak_generic_uint, if_pos hv]
      rw [hq, tweak_generic_uint_unlimited v min max "unlimited" rfl,
        if_neg (by omega), if_neg (by omega), hv]
    · have hq : (tweak_generic_uint v none min max).out = printf_u v := by
        rw [tweak_generic_uint, if_neg hv]
      rw [hq]
      exact tweak_generic_uint_decimal v v min max hle l u
  · intro par dest a h
    have hv : (tweak_timeout par dest (some a)).val ≤ UINT_MAX ∧
        (tweak_timeout par dest (some a)).val ≠ 0 := by
      revert h
      rw [tweak_timeout, tweak_generic_timeout]
      generalize strtoul a.data = s
      by_cases c : to_unsigned s.1 = 0
      · rw [if_pos c]; intro h; exact absurd h (by decide : ¬ ((-1 : Int) = 0))
      · rw [if_neg c]
        intro _
        refine ⟨?_, c⟩
        simp only [to_unsigned, UINT_MAX]
        omega
    generalize (tweak_timeout par dest (some a)).val = v at hv
    rw [tweak_timeout, tweak_timeout]
    exact tweak_generic_timeout_decimal v v hv.1 hv.2
  · intro par dest a h
    have hv : (tweak_bool par dest (some a)).val = 0 ∨ (tweak_bool par dest (some a)).val = 1 := by
      rcases tweak_bool_set_cases par dest a with e | e | e
      · rw [e]; exact Or.inl rfl
      · rw [e]; exact Or.inr rfl
      · rw [e] at h; exact absurd h (by decide : ¬ ((-1 : Int) = 0))
    exact tweak_bool_query_set par _ hv


/-- Witness of C8: the texts `0x10` (bounds 1 and 100), `unlimited`, `30` and `yes`
are set, queried as `16`, `unlimited`, `30` and `on`, and set again. -/
theorem tweak_integer_round_trip_witness :
    tweak_generic_uint 16 (some "16") 1 100 = ⟨0, "", 16⟩ ∧
    (tweak_generic_uint 16 none 1 100).out = "16" ∧
    (tweak_generic_uint 4294967295 none 0 4294967295).out = "unlimited" ∧
    tweak_generic_uint (tweak_generic_uint 5 (some "unlimited") 0 4294967295).val
      (some (tweak_generic_uint (tweak_generic_uint 5 (some "unlimited") 0 4294967295).val
        none 0 4294967295).out) 0 4294967295 =
      ⟨0, "", (tweak_generic_uint 5 (some "unlimited") 0 4294967295).val⟩ ∧
    tweak_timeout ⟨.fin 0, .fin 0, "30"⟩ 30 (some "30") = ⟨0, "", 30⟩ ∧
    tweak_bool ⟨.fin 0, .fin 0, "on"⟩ 1 (some "on") = ⟨0, "", 1⟩ :=
  ⟨tweak_integer_round_trip.1 7 1 100 "0x10" (by decide), by decide, by decide,
    tweak_integer_round_trip.1 5 0 4294967295 "unlimited" (by decide),
    tweak_integer_round_trip.2.1 ⟨.fin 0, .fin 0, "30"⟩ 7 "30" (by decide),
    tweak_integer_round_trip.2.2 ⟨.fin 0, .fin 0, "on"⟩ 0 "yes" (by decide)⟩

/-! ## The vocabulary of `tweak_bool` (C10) -/

/-- A set of `tweak_bool` depends on its text only through `strcasecmp`. -/
theorem tweak_bool_congr (par : parspec) (dest : Nat) (a w : String)
    (h : ∀ b, strcasecmp a.data b = strcasecmp w.data b) :
    tweak_bool par dest (some a) = tweak_bool par dest (some w) := by
  rw [tweak_bool, tweak_bool, h "off".data, h "disable".data, h "no".data, h "false".data,
    h "on".data, h "enable".data, h "yes".data, h "true".data]

theorem tweak_bool_nocase (par : parspec) (dest : Nat) (a w : String) (h : eq_nocase a w) :
    tweak_bool par dest (some a) = tweak_bool par dest (some w) :=
  tweak_bool_congr par dest a w (fun b => strcasecmp_congr_left b h)

/-- C10 (amended): for a descriptor with any default (`off`, or another one such as
`0`), a set of `tweak_bool` accepts `on`, `off`, `true` and `false` in any letter
case, `on` and `true` storing 1, `off` and `false` storing 0; neither pair is
rejected. The default selects the hint that a rejected text gets, and a rejected
text leaves the value unchanged. -/
theorem tweak_bool_vocabulary (par : parspec) (dest : Nat) (a : String) :
    (eq_nocase a "on" ∨ eq_nocase a "true" → tweak_bool par dest (some a) = ⟨0, "", 1⟩) ∧
    (eq_nocase a "off" ∨ eq_nocase a "false" → tweak_bool par dest (some a) = ⟨0, "", 0⟩) ∧
    ((tweak_bool par dest (some a)).ret ≠ 0 →
      tweak_bool par dest (some a) =
        ⟨-1, if par.dflt = "off" ∨ par.dflt = "on" then "use \"on\" or \"off\"\n"
          else "use \"true\" or \"false\"\n", dest⟩) := by
  obtain ⟨w1, w2, w3, w4⟩ := tweak_bool_words par dest
  refine ⟨?_, ?_, ?_⟩
  · rintro (h | h)
    · rw [tweak_bool_nocase par dest a "on" h]; exact w1
    · rw [tweak_bool_nocase par dest a "true" h]; exact w3
  · rintro (h | h)
    · rw [tweak_bool_nocase par dest a "off" h]; exact w2
    · rw [tweak_bool_nocase par dest a "false" h]; exact w4
  · intro h
    rcases tweak_bool_set_cases par dest a with e | e | e
    · rw [e] at h; exact absurd rfl h
    · rw [e] at h; exact absurd rfl h
    · exact e

/-- Witness of C10: `ON` and `Off` with the default `off`, `TRUE` and `False` with
the default `0`, and the rejected text `maybe`. -/
theorem tweak_bool_vocabulary_witness :
    tweak_bool ⟨.fin 0, .fin 0, "off"⟩ 0 (some "ON") = ⟨0, "", 1⟩ ∧
    tweak_bool ⟨.fin 0, .fin 0, "off"⟩ 1 (some "Off") = ⟨0, "", 0⟩ ∧
    tweak_bool ⟨.fin 0, .fin 0, "0"⟩ 0 (some "TRUE") = ⟨0, "", 1⟩ ∧
    tweak_bool ⟨.fin 0, .fin 0, "0"⟩ 1 (some "False") = ⟨0, "", 0⟩ ∧
    tweak_bool ⟨.fin 0, .fin 0, "0"⟩ 1 (some "maybe") =
      ⟨-1, if "0" = "off" ∨ "0" = "on" then "use \"on\" or \"off\"\n"
          else "use \"true\" or \"false\"\n", 1⟩ :=
  ⟨(tweak_bool_vocabulary ⟨.fin 0, .fin 0, "off"⟩ 0 "ON").1 (Or.inl (by decide)),
    (tweak_bool_vocabulary ⟨.fin 0, .fin 0, "off"⟩ 1 "Off").2.1 (Or.inl (by decide)),
    (tweak_bool_vocabulary ⟨.fin 0, .fin 0, "0"⟩ 0 "TRUE").1 (Or.inr (by decide)),
    (tweak_bool_vocabulary ⟨.fin 0, .fin 0, "0"⟩ 1 "False").2.1 (Or.inr (by decide)),
    (tweak_bool_vocabulary ⟨.fin 0, .fin 0, "0"⟩ 1 "maybe").2.2 (by decide)⟩

/-- C10 as stated fails: with the default `off` the texts `true` and `false` are
accepted and change the value, and with the default `0` the texts `on` and `off`
are accepted and change the value. -/
theorem tweak_bool_vocabulary_counterexample :
    tweak_bool ⟨.fin 0, .fin 0, "off"⟩ 0 (some "true") = ⟨0, "", 1⟩ ∧
    tweak_bool ⟨.fin 0, .fin 0, "off"⟩ 1 (some "false") = ⟨0, "", 0⟩ ∧
    tweak_bool ⟨.fin 0, .fin 0, "0"⟩ 0 (some "on") = ⟨0, "", 1⟩ ∧
    tweak_bool ⟨.fin 0, .fin 0, "0"⟩ 1 (some "off") = ⟨0, "", 0⟩ := by
  decide

/-! ## The mapping of `tweak_bool` (C11) -/

theorem tolower_toNat_ne_zero (c : Char) (h : c.toNat ≠ 0) : (tolower c).toNat ≠ 0 := by
  rw [tolower_toNat]
  split_ifs <;> omega

/-- On C strings `strcasecmp` is zero exactly for texts equal ignoring letter case. -/
theorem strcasecmp_eq_zero_iff (a b : List Char) (ha : ∀ c ∈ a, c.toNat ≠ 0)
    (hb : ∀ c ∈ b, c.toNat ≠ 0) :
    strcasecmp a b = 0 ↔ a.map tolower = b.map tolower := by
  induction a generalizing b with
  | nil =>
    cases b with
    | nil => simp [strcasecmp]
    | cons d ds =>
      have := tolower_toNat_ne_zero d (hb d (List.mem_cons_self _ _))
      simp only [strcasecmp, List.map_nil, List.map_cons]
      constructor
      · intro h; omega
      · intro h; exact absurd h (by simp)
  | cons c cs ih =>
    cases b with
    | nil =>
      have := tolower_toNat_ne_zero c (ha c (List.mem_cons_self _ _))
      simp only [strcasecmp, List.map_nil, List.map_cons]
      constructor
      · intro h; omega
      · intro h; exact absurd h (by simp)
    | cons d ds =>
      rw [strcasecmp]
      by_cases e : tolower c = tolower d
      · rw [if_pos e, ih ds (fun x hx => ha x (List.mem_cons_of_mem _ hx))
          (fun x hx => hb x (List.mem_cons_of_mem _ hx))]
        simp only [List.map_cons, e, List.cons.injEq, true_and]
      · rw [if_neg e]
        constructor
        · intro h
          exact absurd (toNat_inj (by omega)) e
        · intro h
          simp only [List.map_cons, List.cons.injEq] at h
          exact absurd h.1 e

theorem strcasecmp_word_iff (a w : String) (ha : c_string a) (hw : c_string w) :
    strcasecmp a.data w.data = 0 ↔ eq_nocase a w :=
  strcasecmp_eq_zero_iff a.data w.data ha hw

/-- A chain of eight tests, the first four giving `x`, the next four `y`. -/
theorem ite_chain8 {α : Type} (c1 c2 c3 c4 c5 c6 c7 c8 : Prop) [Decidable c1] [Decidable c2]
    [Decidable c3] [Decidable c4] [Decidable c5] [Decidable c6] [Decidable c7] [Decidable c8]
    (x y z : α) :
    ((c1 ∨ c2 ∨ c3 ∨ c4) →
      (if c1 then x else if c2 then x else if c3 then x else if c4 then x else
        if c5 then y else if c6 then y else if c7 then y else if c8 then y else z) = x) ∧
    (¬ (c1 ∨ c2 ∨ c3 ∨ c4) → (c5 ∨ c6 ∨ c7 ∨ c8) →
      (if c1 then x else if c2 then x else if c3 then x else if c4 then x else
        if c5 then y else if c6 then y else if c7 then y else if c8 then y else z) = y) ∧
    (¬ (c1 ∨ c2 ∨ c3 ∨ c4) → ¬ (c5 ∨ c6 ∨ c7 ∨ c8) →
      (if c1 then x else if c2 then x else if c3 then x else if c4 then x else
        if c5 then y else if c6 then y else if c7 then y else if c8 then y else z) = z) := by
  by_cases h1 : c1
  · rw [if_pos h1]
    exact ⟨fun _ => rfl, fun h => absurd (Or.inl h1) h, fun h => absurd (Or.inl h1) h⟩
  rw [if_neg h1]
  by_cases h2 : c2
  · rw [if_pos h2]
    exact ⟨fun _ => rfl, fun h => absurd (Or.inr (Or.inl h2)) h,
      fun h => absurd (Or.inr (Or.inl h2)) h⟩
  rw [if_neg h2]
  by_cases h3 : c3
  · rw [if_pos h3]
    exact ⟨fun _ => rfl, fun h => absurd (Or.inr (Or.inr (Or.inl h3))) h,
      fun h => absurd (Or.inr (Or.inr (Or.inl h3))) h⟩
  rw [if_neg h3]
  by_cases h4 : c4
  · rw [if_pos h4]
    exact ⟨fun _ => rfl, fun h => absurd (Or.inr (Or.inr (Or.inr h4))) h,
      fun h => absurd (Or.inr (Or.inr (Or.inr h4))) h⟩
  rw [if_neg h4]
  have hf : ¬ (c1 ∨ c2 ∨ c3 ∨ c4) := by
    rintro (h | h | h | h)
    · exact h1 h
    · exact h2 h
    · exact h3 h
    · exact h4 h
  by_cases h5 : c5
  · rw [if_pos h5]
    exact ⟨fun h => absurd h hf, fun _ _ => rfl, fun _ h => absurd (Or.inl h5) h⟩
  rw [if_neg h5]
  by_cases h6 : c6
  · rw [if_pos h6]
    exact ⟨fun h => absurd h hf, fun _ _ => rfl, fun _ h => absurd (Or.inr (Or.inl h6)) h⟩
  rw [if_neg h6]
  by_cases h7 : c7
  · rw [if_pos h7]
    exact ⟨fun h => absurd h hf, fun _ _ => rfl,
      fun _ h => absurd (Or.inr (Or.inr (Or.inl h7))) h⟩
  rw [if_neg h7]
  by_cases h8 : c8
  · rw [if_pos h8]
    exact ⟨fun h => absurd h hf, fun _ _ => rfl,
      fun _ h => absurd (Or.inr (Or.inr (Or.inr h8))) h⟩
  rw [if_neg h8]
  refine ⟨fun h => absurd h hf, fun _ h => ?_, fun _ _ => rfl⟩
  rcases h with h | h | h | h
  · exact absurd h h5
  · exact absurd h h6
  · exact absurd h h7
  · exact absurd h h8

/-- A set of `tweak_bool` on a C string, by the word the text is. -/
theorem tweak_bool_set_by_word (par : parspec) (dest : Nat) (a : String) (ha : c_string a) :
    (bool_false_word a → tweak_bool par dest (some a) = ⟨0, "", 0⟩) ∧
    (¬ bool_false_word a → bool_true_word a → tweak_bool par dest (some a) = ⟨0, "", 1⟩) ∧
    (¬ bool_false_word a → ¬ bool_true_word a →
      tweak_bool par dest (some a) =
        ⟨-1, if par.dflt = "off" ∨ par.dflt = "on" then "use \"on\" or \"off\"\n"
          else "use \"true\" or \"false\"\n", dest⟩) := by
  have e1 := strcasecmp_word_iff a "off" ha (by decide)
  have e2 := strcasecmp_word_iff a "disable" ha (by decide)
  have e3 := strcasecmp_word_iff a "no" ha (by decide)
  have e4 := strcasecmp_word_iff a "false" ha (by decide)
  have e5 := strcasecmp_word_iff a "on" ha (by decide)
  have e6 := strcasecmp_word_iff a "enable" ha (by decide)
  have e7 := strcasecmp_word_iff a "yes" ha (by decide)
  have e8 := strcasecmp_word_iff a "true" ha (by decide)
  have hF : bool_false_word a ↔ (strcasecmp a.data "off".data = 0 ∨
      strcasecmp a.data "disable".data = 0 ∨ strcasecmp a.data "no".data = 0 ∨
      strcasecmp a.data "false".data = 0) := by
    rw [e1, e2, e3, e4]; rfl
  have hT : bool_true_word a ↔ (strcasecmp a.data "on".data = 0 ∨
      strcasecmp a.data "enable".data = 0 ∨ strcasecmp a.data "yes".data = 0 ∨
      strcasecmp a.data "true".data = 0) := by
    rw [e5, e6, e7, e8]; rfl
  have hint : (if (if par.dflt = "off" ∨ par.dflt = "on" then 1 else 0) ≠ 0 then
      "use \"on\" or \"off\"\n" else "use \"true\" or \"false\"\n") =
      (if par.dflt = "off" ∨ par.dflt = "on" then "use \"on\" or \"off\"\n"
        else "use \"true\" or \"false\"\n") := by
    by_cases hm : par.dflt = "off" ∨ par.dflt = "on"
    · rw [if_pos hm, if_pos hm, if_pos (by decide)]
    · rw [if_neg hm, if_neg hm, if_neg (by decide)]
  rw [tweak_bool, hint, hF, hT]
  exact ite_chain8 _ _ _ _ _ _ _ _ _ _ _

theorem bool_words_disjoint (a : String) (ht : bool_true_word a) : ¬ bool_false_word a := by
  intro hf
  unfold bool_true_word eq_nocase at ht
  unfold bool_false_word eq_nocase at hf
  rcases ht with h | h | h | h <;> rcases hf with g | g | g | g <;>
    exact absurd (h.symm.trans g) (by decide)

/-- C11: the mapping of `tweak_bool`. For every descriptor and every argument text
(a C string): a set stores 0 exactly when the text is one of `off`, `disable`, `no`,
`false` ignoring letter case, stores 1 exactly when it is one of `on`, `enable`,
`yes`, `true` ignoring letter case, and for every other text fails without changing
the value, with the hint `use "on" or "off"` when the default is exactly `off` or
`on` and `use "true" or "false"` otherwise; a query writes `on`/`off` when the
default is exactly `off` or `on` and `true`/`false` otherwise, the first word of each
pair when the live value is non-zero. -/
theorem tweak_bool_mapping (par : parspec) (dest : Nat) (a : String) (ha : c_string a) :
    (tweak_bool par dest (some a) = ⟨0, "", 0⟩ ↔ bool_false_word a) ∧
    (tweak_bool par dest (some a) = ⟨0, "", 1⟩ ↔ bool_true_word a) ∧
    (¬ bool_false_word a → ¬ bool_true_word a →
      tweak_bool par dest (some a) =
        ⟨-1, if par.dflt = "off" ∨ par.dflt = "on" then "use \"on\" or \"off\"\n"
          else "use \"true\" or \"false\"\n", dest⟩) ∧
    tweak_bool par dest none =
      ⟨0, if par.dflt = "off" ∨ par.dflt = "on" then (if dest ≠ 0 then "on" else "off")
        else (if dest ≠ 0 then "true" else "false"), dest⟩ := by
  obtain ⟨k1, k2, k3⟩ := tweak_bool_set_by_word par dest a ha
  refine ⟨⟨fun h => ?_, k1⟩, ⟨fun h => ?_, fun ht => k2 (bool_words_disjoint a ht) ht⟩, k3, ?_⟩
  · by_contra hf
    by_cases ht : bool_true_word a
    · rw [k2 hf ht] at h
      exact absurd (congrArg Res.val h) (by decide)
    · rw [k3 hf ht] at h
      exact absurd (congrArg Res.ret h) (by decide : ¬ ((-1 : Int) = 0))
  · by_contra ht
    by_cases hf : bool_false_word a
    · rw [k1 hf] at h
      exact absurd (congrArg Res.val h) (by decide)
    · rw [k3 hf ht] at h
      exact absurd (congrArg Res.ret h) (by decide : ¬ ((-1 : Int) = 0))
  · rw [tweak_bool]
    by_cases hm : par.dflt = "off" ∨ par.dflt = "on"
    · rw [if_pos hm, if_pos hm, if_pos (by decide)]
    · rw [if_neg hm, if_neg hm, if_neg (by decide)]

/-- Witness of C11: the texts `Disable`, `YES` and `maybe` with the default `on`. -/
theorem tweak_bool_mapping_witness :
    (tweak_bool ⟨.fin 0, .fin 0, "on"⟩ 1 (some "Disable") = ⟨0, "", 0⟩ ↔
      bool_false_word "Disable") ∧
    (tweak_bool ⟨.fin 0, .fin 0, "on"⟩ 0 (some "YES") = ⟨0, "", 1⟩ ↔ bool_true_word "YES") ∧
    tweak_bool ⟨.fin 0, .fin 0, "on"⟩ 0 (some "YES") = ⟨0, "", 1⟩ ∧
    tweak_bool ⟨.fin 0, .fin 0, "on"⟩ 1 (some "maybe") = ⟨-1, "use \"on\" or \"off\"\n", 1⟩ ∧
    tweak_bool ⟨.fin 0, .fin 0, "on"⟩ 1 none = ⟨0, "on", 1⟩ :=
  ⟨(tweak_bool_mapping ⟨.fin 0, .fin 0, "on"⟩ 1 "Disable" (by decide)).1,
    (tweak_bool_mapping ⟨.fin 0, .fin 0, "on"⟩ 0 "YES" (by decide)).2.1,
    by decide, by decide, by decide⟩

/-! ## The field count of `tweak_poolparam` (C12) -/

/-- Fewer than three fields are rejected by `tweak_poolparam`. -/
theorem tweak_poolparam_few_fields (E : Env) (par : parspec) (pp : poolparam) (a : String)
    (fields : List String) (hv : E.VAV_Parse a = some (none, fields))
    (hl : fields.length < 3) :
    tweak_poolparam E par pp (some a) =
      some ⟨-1, "Three fields required: min_pool, max_pool and max_age\n", pp⟩ := by
  rw [tweak_poolparam, hv]
  match fields, hl with
  | [], _ => rfl
  | [_], _ => rfl
  | [_, _], _ => rfl
  | _ :: _ :: _ :: _, hl => simp at hl; omega

/-- Fields after the third are ignored by `tweak_poolparam`. -/
theorem tweak_poolparam_extra_fields (E : Env) (par : parspec) (pp : poolparam)
    (a b a1 a2 a3 : String) (rest : List String)
    (ha : E.VAV_Parse a = some (none, a1 :: a2 :: a3 :: rest))
    (hb : E.VAV_Parse b = some (none, [a1, a2, a3])) :
    tweak_poolparam E par pp (some a) = tweak_poolparam E par pp (some b) := by
  rw [tweak_poolparam, tweak_poolparam, ha, hb]

/-- C12: `tweak_poolparam` tests only that the first three fields exist. With the
bounds 1 and 100 and the live triple (2, 3, 4), the text `1,2,3,4`, which splits
into four fields, is accepted and stores (1, 2, 3); the text `5,10`, which splits
into two, fails with the "Three fields required" diagnostic and leaves the triple
unchanged. -/
theorem tweak_poolparam_four_fields :
    sampleEnv.VAV_Parse "1,2,3,4" = some (none, ["1", "2", "3", "4"]) ∧
    tweak_poolparam sampleEnv ⟨.fin 1, .fin 100, ""⟩ ⟨2, 3, .fin 4⟩ (some "1,2,3,4") =
      some ⟨0, "", ⟨1, 2, .fin 3⟩⟩ ∧
    tweak_poolparam sampleEnv ⟨.fin 1, .fin 100, ""⟩ ⟨2, 3, .fin 4⟩ (some "5,10") =
      some ⟨-1, "Three fields required: min_pool, max_pool and max_age\n", ⟨2, 3, .fin 4⟩⟩ := by
  decide

/-! ## The integer timeout (C13) -/

/-- C13: `tweak_timeout` passes no end pointer to `strtoul` and keeps 32 bits of its
result. On the live value 7: the text `5abc` is accepted and stores 5, the text `-1`
is accepted and stores `UINT_MAX`, the literal `4294967296` of `2^32` is rejected,
and `4294967301` stores 5; the texts `0` and the empty text are rejected with the
value unchanged. `tweak_generic_uint` rejects `5abc` as not a number. -/
theorem tweak_timeout_not_strict :
    tweak_timeout ⟨.fin 0, .fin 0, ""⟩ 7 (some "5abc") = ⟨0, "", 5⟩ ∧
    tweak_timeout ⟨.fin 0, .fin 0, ""⟩ 7 (some "-1") = ⟨0, "", 4294967295⟩ ∧
    tweak_timeout ⟨.fin 0, .fin 0, ""⟩ 7 (some "4294967296") =
      ⟨-1, "Timeout must be greater than zero\n", 7⟩ ∧
    tweak_timeout ⟨.fin 0, .fin 0, ""⟩ 7 (some "4294967301") = ⟨0, "", 5⟩ ∧
    tweak_timeout ⟨.fin 0, .fin 0, ""⟩ 7 (some "0") =
      ⟨-1, "Timeout must be greater than zero\n", 7⟩ ∧
    tweak_timeout ⟨.fin 0, .fin 0, ""⟩ 7 (some "") =
      ⟨-1, "Timeout must be greater than zero\n", 7⟩ ∧
    tweak_generic_uint 7 (some "5abc") 0 100 = ⟨-1, "Not a number (5abc)\n", 7⟩ := by
  decide

/-! ## Parse strictness of the doubles (C18) -/

/-- On a non-empty text `tweak_generic_double` and `tweak_timeout_double` agree:
a text that `strtod` does not read to the end is rejected by both as not a number,
and any other text gets the same result and the same stored value from both. -/
theorem double_strictness_nonempty (E : Env) (par : parspec) (dest : Double) (a : String)
    (ha : a ≠ "") :
    ((E.strtod a).2 ≠ "" →
      tweak_generic_double E par dest (some a) =
        ⟨-1, "Not a number (" ++ a ++ ")\n", dest⟩ ∧
      tweak_timeout_double E par dest (some a) =
        ⟨-1, "Not a number(" ++ a ++ ")\n", dest⟩) ∧
    ((tweak_generic_double E par dest (some a)).ret =
        (tweak_timeout_double E par dest (some a)).ret ∧
      (tweak_generic_double E par dest (some a)).val =
        (tweak_timeout_double E par dest (some a)).val) := by
  rw [tweak_timeout_double, tweak_generic_timeout_double, tweak_generic_double]
  generalize E.strtod a = s
  by_cases hp : s.2 ≠ ""
  · rw [if_pos hp, if_pos (Or.inr hp)]
    exact ⟨fun _ => ⟨rfl, rfl⟩, rfl, rfl⟩
  · have hq : ¬ (a = "" ∨ s.2 ≠ "") := by
      rintro (h | h)
      · exact ha h
      · exact hp h
    rw [if_neg hp, if_neg hq]
    refine ⟨fun h => absurd h hp, ?_⟩
    by_cases h1 : Double.lt s.1 par.min = true
    · rw [if_pos h1, if_pos h1]; exact ⟨rfl, rfl⟩
    · rw [if_neg h1, if_neg h1]
      by_cases h2 : Double.lt par.max s.1 = true
      · rw [if_pos h2, if_pos h2]; exact ⟨rfl, rfl⟩
      · rw [if_neg h2, if_neg h2]; exact ⟨rfl, rfl⟩

/-- C18: `tweak_generic_double` does not test for the empty text. With `strtod`
reading the empty text as 0 and consuming nothing, bounds 0 and 10 and the live
value 3, a set of the empty text is accepted by `tweak_generic_double` and stores 0,
while `tweak_timeout_double` rejects it as not a number and keeps 3. -/
theorem tweak_generic_double_accepts_empty :
    sampleEnv.strtod "" = (.fin 0, "") ∧
    tweak_generic_double sampleEnv ⟨.fin 0, .fin 10, ""⟩ (.fin 3) (some "") =
      ⟨0, "", .fin 0⟩ ∧
    tweak_timeout_double sampleEnv ⟨.fin 0, .fin 10, ""⟩ (.fin 3) (some "") =
      ⟨-1, "Not a number()\n", .fin 3⟩ := by
  decide

/-! ## The encoder `fmt_bytes` (C15, C16, C17, C20) -/

theorem fmt_bytes_loop_text (ps : List Char) (t : Nat) :
    fmt_bytes_loop ps t = (fmt_bytes_loop_call ps t).text := by
  induction ps generalizing t with
  | nil => rfl
  | cons p ps ih =>
    rw [fmt_bytes_loop, fmt_bytes_loop_call]
    by_cases h1 : t &&& 0x300 ≠ 0
    · rw [if_pos h1, if_pos h1]; rfl
    · rw [if_neg h1, if_neg h1]
      by_cases h2 : (t / 1024) &&& 0x0ff ≠ 0
      · rw [if_pos h2, if_pos h2]; rfl
      · rw [if_neg h2, if_neg h2]; exact ih _

/-- The text of `fmt_bytes` is the text of the call it makes. -/
theorem fmt_bytes_text (t : Nat) : fmt_bytes t = (fmt_bytes_call t).text := by
  rw [fmt_bytes, fmt_bytes_call]
  by_cases h : t &&& 0xff ≠ 0
  · rw [if_pos h, if_pos h]; rfl
  · rw [if_neg h, if_neg h]; exact fmt_bytes_loop_text _ _

theorem and_0xff (t : Nat) : t &&& 0xff = t % 256 :=
  Nat.and_pow_two_sub_one_eq_mod t 8

theorem and_0x300 (t : Nat) (h : t % 256 = 0) : t &&& 0x300 = t % 1024 := by
  have e1 : t &&& 0x300 = (t % 1024) &&& 0x300 := by
    have h1 : t &&& 1023 = t % 1024 := Nat.and_pow_two_sub_one_eq_mod t 10
    have h2 : (1023 : Nat) &&& 0x300 = 0x300 := by decide
    rw [← h1, Nat.land_assoc, h2]
  rw [e1]
  have hc : t % 1024 = 0 ∨ t % 1024 = 256 ∨ t % 1024 = 512 ∨ t % 1024 = 768 := by omega
  rcases hc with h | h | h | h <;> rw [h] <;> decide

/-- The loop of `fmt_bytes` on a whole multiple `q * 1024^(j+1)`, with `q` not a
multiple of 256: the integer `q` with the suffix at index `j`. -/
theorem fmt_bytes_loop_call_whole (ps : List Char) (j q : Nat) (p : Char)
    (hp : ps[j]? = some p) (hq : q % 256 ≠ 0) :
    fmt_bytes_loop_call ps (q * 1024 ^ (j + 1)) = .int q p := by
  induction ps generalizing j with
  | nil => simp at hp
  | cons p0 ps ih =>
    have hdiv : q * 1024 ^ (j + 1) / 1024 = q * 1024 ^ j := by
      rw [pow_succ, ← Nat.mul_assoc]
      exact Nat.mul_div_cancel _ (by decide)
    have h256 : q * 1024 ^ (j + 1) % 256 = 0 := by
      rw [pow_succ, ← Nat.mul_assoc]
      omega
    have h1024 : q * 1024 ^ (j + 1) % 1024 = 0 := by
      rw [pow_succ, ← Nat.mul_assoc]
      omega
    rw [fmt_bytes_loop_call, and_0x300 _ h256, h1024, if_neg (by decide), hdiv, and_0xff]
    cases j with
    | zero =>
      simp only [pow_zero, Nat.mul_one]
      rw [if_pos hq]
      simp only [List.getElem?_cons_zero, Option.some.injEq] at hp
      rw [hp]
    | succ j =>
      have h2 : q * 1024 ^ (j + 1) % 256 = 0 := by
        rw [pow_succ, ← Nat.mul_assoc]
        omega
      rw [if_neg (by omega)]
      simp only [List.getElem?_cons_succ] at hp
      exact ih j hp

/-- C15: whole-unit rendering of `fmt_bytes`. For every `k` in 0..8 and every `q`
that is not a multiple of 256 with `q * 1024^k < 2^64`, `fmt_bytes (q * 1024^k)`
writes the decimal digits of `q` followed by the `k`-th character of `bkMGTPEZY`. In
particular a value that is not a multiple of 256 is written as the raw count with
the suffix `b`, and `fmt_bytes 1048576` writes `1M`. -/
theorem fmt_bytes_whole_units :
    (∀ (k q : Nat) (p : Char), k ≤ 8 → q % 256 ≠ 0 →
      q * 1024 ^ k < 18446744073709551616 → "bkMGTPEZY".data[k]? = some p →
      fmt_bytes (q * 1024 ^ k) = printf_u q ++ ⟨[p]⟩) ∧
    (∀ t : Nat, t % 256 ≠ 0 → fmt_bytes t = printf_u t ++ "b") ∧
    fmt_bytes 1048576 = "1M" := by
  have hb : ∀ t : Nat, t % 256 ≠ 0 → fmt_bytes t = printf_u t ++ "b" := by
    intro t ht
    rw [fmt_bytes, and_0xff, if_pos ht]
  refine ⟨?_, hb, by decide⟩
  intro k q p _ hq _ hp
  cases k with
  | zero =>
    simp only [pow_zero, Nat.mul_one]
    have e : p = 'b' := by
      have : "bkMGTPEZY".data[0]? = some 'b' := rfl
      rw [this] at hp
      exact (Option.some.inj hp).symm
    rw [hb q hq, e]
  | succ j =>
    have h256 : q * 1024 ^ (j + 1) % 256 = 0 := by
      rw [pow_succ, ← Nat.mul_assoc]
      omega
    have hp2 : "kMGTPEZY".data[j]? = some p := by
      have e : "bkMGTPEZY".data = 'b' :: "kMGTPEZY".data := rfl
      rw [e, List.getElem?_cons_succ] at hp
      exact hp
    rw [fmt_bytes_text, fmt_bytes_call, and_0xff, if_neg (by omega),
      fmt_bytes_loop_call_whole _ j q p hp2 hq]
    rfl

/-- Witness of C15: `3 * 1024^2` is written as `3M`, and 1000 as `1000b`. -/
theorem fmt_bytes_whole_units_witness :
    fmt_bytes (3 * 1024 ^ 2) = printf_u 3 ++ ⟨['M']⟩ ∧ fmt_bytes 1000 = printf_u 1000 ++ "b" :=
  ⟨fmt_bytes_whole_units.1 2 3 'M' (by decide) (by decide) (by decide) (by decide),
    fmt_bytes_whole_units.2.1 1000 (by decide)⟩

/-- The loop of `fmt_bytes` on a non-zero multiple of 256 that the suffixes left can
hold: it makes a call, with an integer `q` at the suffix of index `i` where
`q * 1024^(i+1) = t`, or with a quotient of `c` where `c * 1024^i = t`. -/
theorem fmt_bytes_loop_call_spec (ps : List Char) (t : Nat) (h256 : t % 256 = 0)
    (h0 : t ≠ 0) (hb : t < 256 * 1024 ^ ps.length) :
    (∃ i p q, ps[i]? = some p ∧ fmt_bytes_loop_call ps t = .int q p ∧
      q * 1024 ^ (i + 1) = t ∧ q % 256 ≠ 0) ∨
    (∃ i p c, ps[i]? = some p ∧ fmt_bytes_loop_call ps t = .frac c p ∧
      c * 1024 ^ i = t ∧ c % 256 = 0 ∧ c % 1024 ≠ 0) := by
  induction ps generalizing t with
  | nil =>
    simp only [List.length_nil, pow_zero, Nat.mul_one] at hb
    omega
  | cons p0 ps ih =>
    rw [fmt_bytes_loop_call, and_0x300 t h256, and_0xff]
    by_cases h1 : t % 1024 ≠ 0
    · rw [if_pos h1]
      exact Or.inr ⟨0, p0, t, List.getElem?_cons_zero, rfl, by simp, h256, h1⟩
    · rw [if_neg h1]
      have ht : t / 1024 * 1024 = t := by omega
      by_cases h2 : t / 1024 % 256 ≠ 0
      · rw [if_pos h2]
        exact Or.inl ⟨0, p0, t / 1024, List.getElem?_cons_zero, rfl, by simpa using ht, h2⟩
      · rw [if_neg h2]
        have hb2 : t / 1024 < 256 * 1024 ^ ps.length := by
          simp only [List.length_cons, pow_succ] at hb
          omega
        rcases ih (t / 1024) (by omega) (by omega) hb2 with
          ⟨i, p, q, hp, hc, he, hq⟩ | ⟨i, p, c, hp, hc, he, hm, hn⟩
        · refine Or.inl ⟨i + 1, p, q, by simpa using hp, hc, ?_, hq⟩
          rw [pow_succ, ← Nat.mul_assoc, he, ht]
        · refine Or.inr ⟨i + 1, p, c, by simpa using hp, hc, ?_, hm, hn⟩
          rw [pow_succ, ← Nat.mul_assoc, he, ht]

theorem getElem?_lt_length {α : Type} (l : List α) (i : Nat) (x : α) (h : l[i]? = some x) :
    i < l.length := by
  by_contra hc
  rw [List.getElem?_eq_none (by omega)] at h
  exact absurd h (by simp)

/-- The call `fmt_bytes` makes on a non-zero `uintmax_t`. -/
theorem fmt_bytes_call_spec (t : Nat) (h0 : 0 < t) (ht : t < 18446744073709551616) :
    (∃ k p q, k ≤ 8 ∧ "bkMGTPEZY".data[k]? = some p ∧ fmt_bytes_call t = .int q p ∧
      q * 1024 ^ k = t ∧ q % 256 ≠ 0) ∨
    (∃ k p c, 1 ≤ k ∧ k ≤ 8 ∧ "bkMGTPEZY".data[k]? = some p ∧
      fmt_bytes_call t = .frac c p ∧ c * 1024 ^ (k - 1) = t ∧ c % 256 = 0 ∧
      c % 1024 ≠ 0) := by
  rw [fmt_bytes_call, and_0xff]
  by_cases h : t % 256 ≠ 0
  · rw [if_pos h]
    exact Or.inl ⟨0, 'b', t, by omega, rfl, rfl, by simp, h⟩
  · rw [if_neg h]
    have hb : t < 256 * 1024 ^ "kMGTPEZY".data.length := by
      have : "kMGTPEZY".data.length = 8 := rfl
      rw [this]
      norm_num
      omega
    have e : "bkMGTPEZY".data = 'b' :: "kMGTPEZY".data := rfl
    rcases fmt_bytes_loop_call_spec "kMGTPEZY".data t (by omega) (by omega) hb with
      ⟨i, p, q, hp, hc, he, hq⟩ | ⟨i, p, c, hp, hc, he, hm, hn⟩
    · have hi := getElem?_lt_length _ _ _ hp
      have hl : "kMGTPEZY".data.length = 8 := rfl
      refine Or.inl ⟨i + 1, p, q, by omega, ?_, hc, he, hq⟩
      rw [e, List.getElem?_cons_succ]
      exact hp
    · have hi := getElem?_lt_length _ _ _ hp
      have hl : "kMGTPEZY".data.length = 8 := rfl
      refine Or.inr ⟨i + 1, p, c, by omega, by omega, ?_, hc, he, hm, hn⟩
      rw [e, List.getElem?_cons_succ]
      exact hp

/-- A multiple of 256 below `2^61` is converted to `double` exactly. -/
theorem round53_mul256 (c : Nat) (h : c % 256 = 0) (hc : c < 2305843009213693952) :
    round53 c = c := by
  have hb := bitlen_le 64 c 61 (by norm_num; omega)
  obtain ⟨s, hs, hs8⟩ : ∃ s, bitlen 64 c - 53 = s ∧ s ≤ 8 := ⟨_, rfl, by omega⟩
  have hd : 2 ^ s ∣ c := by
    have h1 : (2 : Nat) ^ s ∣ 2 ^ 8 := pow_dvd_pow 2 hs8
    have h2 : (2 : Nat) ^ 8 ∣ c := by
      norm_num
      exact Nat.dvd_of_mod_eq_zero h
    exact Nat.dvd_trans h1 h2
  have hpos : 0 < 2 ^ s := by positivity
  unfold round53
  simp only [hs, Nat.mod_eq_zero_of_dvd hd, Nat.mul_zero]
  rw [if_neg (by omega)]
  exact Nat.div_mul_cancel hd

/-- The text `%.2f` writes for `c / 1024.0`, `c` a multiple of 256: the hundredths
`h = c * 100 / 1024` are exact. -/
theorem printf_2f_1024_exact (c : Nat) (h : c % 256 = 0) :
    c * 100 / 1024 * 1024 = c * 100 ∧
    printf_2f_1024 c = printf_u (c * 100 / 1024 / 100) ++ "." ++
      ⟨[digitChar (c * 100 / 1024 % 100 / 10), digitChar (c * 100 / 1024 % 10)]⟩ := by
  have hr : c * 100 % 1024 = 0 := by omega
  refine ⟨by omega, ?_⟩
  unfold printf_2f_1024
  simp only [hr, Nat.mul_zero]
  rw [if_neg (by omega)]

/-- The placeholder is not written for a non-zero `uintmax_t`. -/
theorem fmt_bytes_call_ne_bogus (t : Nat) (h0 : 0 < t) (ht : t < 18446744073709551616) :
    fmt_bytes_call t ≠ .bogus := by
  rcases fmt_bytes_call_spec t h0 ht with ⟨k, p, q, _, _, hc, _⟩ | ⟨k, p, c, _, _, _, hc, _⟩
  · rw [hc]; exact fun h => nomatch h
  · rw [hc]; exact fun h => nomatch h

/-- C16 (amended): `fmt_bytes 81920`, and therefore a query of a byte-size parameter
whose live value is 81920, writes the text `80k`; two decimals are written only for
a value that is not a whole number of units, as `80.25k` for 82176. -/
theorem fmt_bytes_80k :
    fmt_bytes 81920 = "80k" ∧
    (∀ (E : Env) (min max : Double),
      tweak_generic_bytes E 81920 none min max = ⟨0, "80k", 81920⟩) ∧
    tweak_bytes sampleEnv ⟨.fin 0, .fin 0, ""⟩ 81920 none = some ⟨0, "80k", 81920⟩ ∧
    fmt_bytes 82176 = "80.25k" := by
  refine ⟨by decide, fun E min max => ?_, by decide, by decide⟩
  rw [tweak_generic_bytes]
  have e : fmt_bytes (to_uintmax 81920) = "80k" := by decide
  rw [e]

/-- C16 as stated fails: `fmt_bytes 81920` does not write `80.00k`. -/
theorem fmt_bytes_80k_counterexample :
    fmt_bytes 81920 ≠ "80.00k" ∧
    tweak_bytes sampleEnv ⟨.fin 0, .fin 0, ""⟩ 81920 none ≠ some ⟨0, "80.00k", 81920⟩ := by
  decide

/-- C17: `fmt_bytes 0` writes the placeholder: no test of the function fires on 0.
With the bounds 0 and 0 a set of the text `0` succeeds and stores 0, and the query
that follows writes `(bogus number)`. -/
theorem fmt_bytes_zero_bogus :
    fmt_bytes 0 = "(bogus number)" ∧
    fmt_bytes_call 0 = .bogus ∧
    tweak_bytes sampleEnv ⟨.fin 0, .fin 0, ""⟩ 5 (some "0") = some ⟨0, "", 0⟩ ∧
    tweak_bytes sampleEnv ⟨.fin 0, .fin 0, ""⟩ 0 none = some ⟨0, "(bogus number)", 0⟩ := by
  decide

/-- C20 (amended): the encoder on non-zero values. For every `t` with
`0 < t < 2^64`, `fmt_bytes` makes, at some suffix index `k` in 0..8 of `bkMGTPEZY`,
either the integer call with a `q` such that `q * 1024^k = t`, or (`k >= 1`) the
two-decimal call with the quotient by 1024 of a `c` such that `c * 1024^(k-1) = t`,
`c` a multiple of 256, whose hundredths `c * 100 / 1024` are exact; every division
by 1024 performed has remainder zero. When `t < 2^61` or `k >= 2` the conversion of
`c` to `double` is exact and the text denotes `c / 1024` exactly. -/
theorem fmt_bytes_lossless (t : Nat) (h0 : 0 < t) (ht : t < 18446744073709551616) :
    fmt_bytes t = (fmt_bytes_call t).text ∧
    ((∃ k p q, k ≤ 8 ∧ "bkMGTPEZY".data[k]? = some p ∧ fmt_bytes_call t = .int q p ∧
        q * 1024 ^ k = t ∧ 1024 ^ k ∣ t) ∨
      (∃ k p c, 1 ≤ k ∧ k ≤ 8 ∧ "bkMGTPEZY".data[k]? = some p ∧
        fmt_bytes_call t = .frac c p ∧ c * 1024 ^ (k - 1) = t ∧ 1024 ^ (k - 1) ∣ t ∧
        c % 256 = 0 ∧ c * 100 / 1024 * 1024 = c * 100 ∧
        (t < 2305843009213693952 ∨ 2 ≤ k →
          round53 c = c ∧
          fmt_bytes t = printf_u (c * 100 / 1024 / 100) ++ "." ++
            ⟨[digitChar (c * 100 / 1024 % 100 / 10), digitChar (c * 100 / 1024 % 10)]⟩ ++
            ⟨[p]⟩))) := by
  refine ⟨fmt_bytes_text t, ?_⟩
  rcases fmt_bytes_call_spec t h0 ht with
    ⟨k, p, q, hk, hp, hc, he, _⟩ | ⟨k, p, c, hk1, hk8, hp, hc, he, hm, _⟩
  · exact Or.inl ⟨k, p, q, hk, hp, hc, he, Dvd.intro_left q he⟩
  · obtain ⟨x1, x2⟩ := printf_2f_1024_exact c hm
    refine Or.inr ⟨k, p, c, hk1, hk8, hp, hc, he, Dvd.intro_left c he, hm, x1, fun hs => ?_⟩
    have hc61 : c < 2305843009213693952 := by
      have hpos : 0 < 1024 ^ (k - 1) := by positivity
      rcases hs with hs | hs
      · have : c ≤ c * 1024 ^ (k - 1) := Nat.le_mul_of_pos_right c hpos
        omega
      · have h1 : 1024 ^ 1 ≤ 1024 ^ (k - 1) := Nat.pow_le_pow_right (by decide) (by omega)
        have h2 : c * 1024 ^ 1 ≤ c * 1024 ^ (k - 1) := Nat.mul_le_mul_left c h1
        omega
    have hr := round53_mul256 c hm hc61
    refine ⟨hr, ?_⟩
    rw [fmt_bytes_text, hc, fmt_call.text, hr, x2]

/-- Witness of C20: 1280 is written as `1.25k`, and 3145728 as `3M`. -/
theorem fmt_bytes_lossless_witness :
    fmt_bytes 1280 = (fmt_bytes_call 1280).text ∧ fmt_bytes_call 1280 = .frac 1280 'k' ∧
    fmt_bytes 1280 = "1.25k" ∧ fmt_bytes_call 3145728 = .int 3 'M' :=
  ⟨(fmt_bytes_lossless 1280 (by decide) (by decide)).1, by decide, by decide, by decide⟩

/-- C20 as stated fails: for `t = 2^61 + 256` the two-decimal call is made with
`c = t` at the suffix `k`, the conversion of `c` to `double` gives `2^61`, and the
text written, `2251799813685248.00k`, is not `c / 1024 = 2251799813685248.25`. -/
theorem fmt_bytes_lossless_counterexample :
    fmt_bytes_call 2305843009213694208 = .frac 2305843009213694208 'k' ∧
    round53 2305843009213694208 = 2305843009213693952 ∧
    fmt_bytes 2305843009213694208 = "2251799813685248.00k" ∧
    225179981368524800 * 1024 ≠ 2305843009213694208 * 100 ∧
    225179981368524825 * 1024 = 2305843009213694208 * 100 := by
  decide

/-! ## The unsigned byte-size variant (C19) -/

/-- With an upper bound other than 0 that satisfies the assertion of
`tweak_bytes_u`, a successful set stores the decoded count exactly and a failing set
leaves the value unchanged. -/
theorem tweak_bytes_u_bounded (E : Env) (par : parspec) (d1 : Nat) (a : String) (r : Nat)
    (q : ℚ) (hdec : E.VNUM_2bytes a = .ok r) (hr : r < 18446744073709551616)
    (hmax : par.max = .fin q) (hq0 : q ≠ 0) (hq : q ≤ 4294967295)
    (hmin : Double.le (.fin 0) par.min = true) :
    ∃ res, tweak_bytes_u E par d1 (some a) = some res ∧
      (res.ret = 0 → res.val = r ∧ r ≤ UINT_MAX) ∧ (res.ret ≠ 0 → res.val = d1) := by
  have hle : Double.le par.max (Double.fin 4294967295) = true := by
    rw [hmax]
    simp only [Double.le, decide_eq_true_eq]
    exact hq
  rw [tweak_bytes_u, if_pos hle, if_pos hmin, tweak_generic_bytes_decoded E _ a r _ _ hdec hr]
  by_cases c1 : par.max.ne0 = true ∧ Double.lt par.max (of_uintmax r) = true
  · rw [if_pos c1]
    dsimp only
    rw [if_pos (by decide)]
    exact ⟨_, rfl, fun h => absurd h (by decide : ¬ ((-1 : Int) = 0)), fun _ => rfl⟩
  · rw [if_neg c1]
    by_cases c2 : Double.lt (of_uintmax r) par.min = true
    · rw [if_pos c2]
      dsimp only
      rw [if_pos (by decide)]
      exact ⟨_, rfl, fun h => absurd h (by decide : ¬ ((-1 : Int) = 0)), fun _ => rfl⟩
    · rw [if_neg c2]
      dsimp only
      rw [if_neg (by decide)]
      have hround : round53 r ≤ 4294967295 := by
        have hne : par.max.ne0 = true := by
          rw [hmax]
          simp only [Double.ne0, decide_eq_true_eq]
          exact hq0
        have hlt : ¬ Double.lt par.max (of_uintmax r) = true := fun h => c1 ⟨hne, h⟩
        rw [hmax] at hlt
        simp only [Double.lt, of_uintmax, decide_eq_true_eq, not_lt] at hlt
        have : ((round53 r : ℕ) : ℚ) ≤ ((4294967295 : ℕ) : ℚ) := by
          push_cast
          exact le_trans hlt hq
        exact_mod_cast this
      have hsmall : r ≤ 9007199254740992 := by
        by_contra hc
        have := round53_large r (by omega)
        omega
      have hru : r ≤ UINT_MAX := by
        rw [round53_small r hsmall] at hround
        exact hround
      refine ⟨_, rfl, fun _ => ⟨?_, hru⟩, fun h => absurd rfl h⟩
      show ssize_to_unsigned (to_ssize r) = r
      rw [to_ssize_small r (by omega)]
      exact ssize_to_unsigned_cast r hru

/-- C19: with the upper bound 0, which satisfies the assertions of `tweak_bytes_u`
and means "no upper bound", the private signed-size copy is committed to the
`unsigned` truncated: on the live value 7 and the bounds 0 and 0, the text
`4294967296` decodes to `2^32`, the set returns 0 and the live value is 0; the text
`4294967301` stores 5. -/
theorem tweak_bytes_u_truncates :
    tweak_bytes_u sampleEnv ⟨.fin 0, .fin 0, ""⟩ 7 (some "4294967296") = some ⟨0, "", 0⟩ ∧
    tweak_bytes_u sampleEnv ⟨.fin 0, .fin 0, ""⟩ 7 (some "4294967301") = some ⟨0, "", 5⟩ ∧
    (tweak_generic_bytes sampleEnv 7 (some "4294967296") (.fin 0) (.fin 0)).val =
      4294967296 := by
  decide

/-! ## Identities (C14) -/

theorem printf_d_to_int (n : Nat) (h : n < 2147483648) : printf_d (to_int n) = printf_u n := by
  have e : to_int n = (n : Int) := by
    rw [to_int, if_pos (by omega)]
    congr 1
    omega
  rw [e, printf_d, if_neg (by omega), Int.natAbs_ofNat]

/-- C14: the identity tweaks `tweak_user` and `tweak_group`, with the name lookup
and the real ids of the process as inputs. A set with a non-empty name that the
lookup does not find fails with `Unknown user` / `Unknown group` and leaves the
cached name and the id unchanged; a set with the empty text succeeds, sets the id to
the real id of the process and leaves the cached name unchanged; a set with a name
that the lookup finds succeeds and sets the cached name to the name found and the id
to the id found. A query writes `<name> (<id>)` when a cached name exists and
`UID <id>` / `GID <id>` otherwise, the id converted to `int` and written by `%d`,
which is its decimal text when it is below `2^31`. -/
theorem tweak_identity (I : IdEnv) (par : parspec) (st : identity) :
    (∀ a, a ≠ "" → I.getpwnam a = none →
      tweak_user I par st (some a) = ⟨-1, "Unknown user", st⟩) ∧
    (∀ a, a ≠ "" → I.getgrnam a = none →
      tweak_group I par st (some a) = ⟨-1, "Unknown group", st⟩) ∧
    tweak_user I par st (some "") = ⟨0, "", ⟨st.name, I.getuid⟩⟩ ∧
    tweak_group I par st (some "") = ⟨0, "", ⟨st.name, I.getgid⟩⟩ ∧
    (∀ a nm id, a ≠ "" → I.getpwnam a = some (nm, id) →
      tweak_user I par st (some a) = ⟨0, "", ⟨some nm, id⟩⟩) ∧
    (∀ a nm id, a ≠ "" → I.getgrnam a = some (nm, id) →
      tweak_group I par st (some a) = ⟨0, "", ⟨some nm, id⟩⟩) ∧
    (∀ nm, st.name = some nm →
      tweak_user I par st none = ⟨0, nm ++ " (" ++ printf_d (to_int st.id) ++ ")", st⟩ ∧
      tweak_group I par st none = ⟨0, nm ++ " (" ++ printf_d (to_int st.id) ++ ")", st⟩) ∧
    (st.name = none →
      tweak_user I par st none = ⟨0, "UID " ++ printf_d (to_int st.id), st⟩ ∧
      tweak_group I par st none = ⟨0, "GID " ++ printf_d (to_int st.id), st⟩) ∧
    (st.id < 2147483648 → printf_d (to_int st.id) = printf_u st.id) := by
  refine ⟨?_, ?_, ?_, ?_, ?_, ?_, ?_, ?_, printf_d_to_int st.id⟩
  · intro a ha hl
    rw [tweak_user, if_pos ha, hl]
  · intro a ha hl
    rw [tweak_group, if_pos ha, hl]
  · rw [tweak_user, if_neg (by simp)]
  · rw [tweak_group, if_neg (by simp)]
  · intro a nm id ha hl
    rw [tweak_user, if_pos ha, hl]
  · intro a nm id ha hl
    rw [tweak_group, if_pos ha, hl]
  · intro nm hn
    rw [tweak_user, tweak_group, hn]
    exact ⟨rfl, rfl⟩
  · intro hn
    rw [tweak_user, tweak_group, hn]
    exact ⟨rfl, rfl⟩

/-- Witness of C14: on the cached user `nobody` with id 65534, the unknown name
`ghost`, the known name `www`, the empty text and the query. -/
theorem tweak_identity_witness :
    tweak_user sampleIdEnv ⟨.fin 0, .fin 0, ""⟩ ⟨some "nobody", 65534⟩ (some "ghost") =
      ⟨-1, "Unknown user", ⟨some "nobody", 65534⟩⟩ ∧
    tweak_user sampleIdEnv ⟨.fin 0, .fin 0, ""⟩ ⟨some "nobody", 65534⟩ (some "www") =
      ⟨0, "", ⟨some "www", 33⟩⟩ ∧
    tweak_user sampleIdEnv ⟨.fin 0, .fin 0, ""⟩ ⟨some "nobody", 65534⟩ (some "") =
      ⟨0, "", ⟨some "nobody", 1000⟩⟩ ∧
    tweak_user sampleIdEnv ⟨.fin 0, .fin 0, ""⟩ ⟨some "nobody", 65534⟩ none =
      ⟨0, "nobody (65534)", ⟨some "nobody", 65534⟩⟩ ∧
    tweak_group sampleIdEnv ⟨.fin 0, .fin 0, ""⟩ ⟨none, 50⟩ none = ⟨0, "GID 50", ⟨none, 50⟩⟩ ∧
    tweak_group sampleIdEnv ⟨.fin 0, .fin 0, ""⟩ ⟨none, 50⟩ (some "wheel") =
      ⟨-1, "Unknown group", ⟨none, 50⟩⟩ :=
  ⟨(tweak_identity sampleIdEnv ⟨.fin 0, .fin 0, ""⟩ ⟨some "nobody", 65534⟩).1 "ghost"
      (by decide) (by decide),
    (tweak_identity sampleIdEnv ⟨.fin 0, .fin 0, ""⟩ ⟨some "nobody", 65534⟩).2.2.2.2.1
      "www" "www" 33 (by decide) (by decide),
    (tweak_identity sampleIdEnv ⟨.fin 0, .fin 0, ""⟩ ⟨some "nobody", 65534⟩).2.2.1,
    by decide, by decide,
    (tweak_identity sampleIdEnv ⟨.fin 0, .fin 0, ""⟩ ⟨none, 50⟩).2.1 "wheel"
      (by decide) (by decide)⟩

end Varnish
